import Mathlib

/-!
Verification of the cache matching engine and persistence contract of the
`web-cache-api-persistence` library (a Cache API implementation over pluggable
persistence backends).

The development shallowly embeds the relevant source functions:

* `Cache.prototype._requestMatchesCachedItem` (src/cache.ts),
* `CachePersistenceBase.prototype._expiresIn`, `_pairToPlain`,
  `_persistenceKey`, `_hasExpired` (cache-persistence-base.ts),
* the in-memory backend (`CachePersistenceMemory`: `_dbSet`, `_dbDel`,
  `_dbKeys`, `_dbScan`, `put`, `delete`, `get`, `[Symbol.asyncIterator]`),
* the Redis backend's `_dbKeys` pagination over a sorted set,
* the Deno KV backend's `_serialize` / `_parse` codec pair,
* `Cache.prototype.put` validation.

JavaScript numbers are modelled by `JNum` (a rational or NaN; the float
rounding of exact rational arithmetic is not modelled).  Web-platform
collaborators are modelled after their WHATWG specifications: `Headers.get`
validates the header name (throwing `TypeError` on non-token names) and
returns the comma-joined combined value; `TextDecoder`/`TextEncoder` are the
UTF-8 decoder with replacement and the UTF-8 encoder.  External injected
functions (the header normalizer, the xxhash64 digest, the `Date` parser)
are parameters, exactly as they are injected or imported in the source.
-/

unseal Rat.add Rat.sub Rat.mul Rat.inv

namespace WebCache

/-! ## Character-level string helpers

JavaScript's `String.prototype.split` with a single-character separator,
`trim`, `includes` and `startsWith` are modelled on the character list of the
string.  All helpers are executable. -/

/-- Split a character list on a separator character; mirrors the behaviour of
JavaScript `s.split(sep)` for a one-character separator (in particular,
splitting the empty string yields one empty field). -/
def splitCh (sep : Char) : List Char → List (List Char)
  | [] => [[]]
  | c :: rest =>
    let r := splitCh sep rest
    if c = sep then [] :: r
    else
      match r with
      | [] => [[c]]
      | h :: t => (c :: h) :: t

/-- Join character lists with a separator character (JavaScript `parts.join(sep)`). -/
def joinCh (sep : Char) : List (List Char) → List Char
  | [] => []
  | [x] => x
  | x :: y :: t => x ++ sep :: joinCh sep (y :: t)

theorem splitCh_ne_nil (sep : Char) (cs : List Char) : splitCh sep cs ≠ [] := by
  cases cs with
  | nil => simp [splitCh]
  | cons c rest =>
    simp only [splitCh]
    split
    · simp
    · match h : splitCh sep rest with
      | [] => simp
      | h' :: t => simp

theorem splitCh_no_sep (sep : Char) (cs : List Char) (h : sep ∉ cs) :
    splitCh sep cs = [cs] := by
  induction cs with
  | nil => simp [splitCh]
  | cons c rest ih =>
    have hc : c ≠ sep := fun hh => h (by simp [hh])
    have hr : sep ∉ rest := fun hh => h (by simp [hh])
    simp only [splitCh, if_neg hc, ih hr]

theorem splitCh_append_sep (sep : Char) (cs rest : List Char) (h : sep ∉ cs) :
    splitCh sep (cs ++ sep :: rest) = cs :: splitCh sep rest := by
  induction cs with
  | nil => simp [splitCh]
  | cons c cs2 ih =>
    have hc : c ≠ sep := fun hh => h (by simp [hh])
    have hr : sep ∉ cs2 := fun hh => h (by simp [hh])
    simp only [List.cons_append, splitCh, if_neg hc]
    rw [show cs2.append (sep :: rest) = cs2 ++ sep :: rest from rfl, ih hr]

/-- Splitting is a left inverse of joining when no part contains the separator. -/
theorem splitCh_joinCh (sep : Char) (parts : List (List Char))
    (hne : parts ≠ []) (hsep : ∀ p ∈ parts, sep ∉ p) :
    splitCh sep (joinCh sep parts) = parts := by
  induction parts with
  | nil => exact absurd rfl hne
  | cons p rest ih =>
    cases rest with
    | nil => simpa [joinCh] using splitCh_no_sep sep p (hsep p (by simp))
    | cons q rest2 =>
      have hrest : splitCh sep (joinCh sep (q :: rest2)) = q :: rest2 :=
        ih (by simp) (by intro x hx; exact hsep x (by simp [hx]))
      simp only [joinCh]
      rw [splitCh_append_sep sep p _ (hsep p (by simp)), hrest]

/-- JavaScript `s.split(sep)` for a one-character separator, on strings. -/
def jsSplit (sep : Char) (s : String) : List String :=
  (splitCh sep s.toList).map (fun cs => String.mk cs)

/-- White space recognised by JavaScript `String.prototype.trim` (the ASCII
subset plus NBSP and the Unicode line separators relevant here). -/
def jsIsWhitespace (c : Char) : Bool :=
  c.toNat = 32 || c.toNat = 9 || c.toNat = 10 || c.toNat = 13 ||
  c.toNat = 11 || c.toNat = 12 || c.toNat = 160 || c.toNat = 0xFEFF ||
  c.toNat = 0x2028 || c.toNat = 0x2029

/-- JavaScript `s.trim()`. -/
def jsTrim (s : String) : String :=
  String.mk (((s.toList.dropWhile jsIsWhitespace).reverse.dropWhile jsIsWhitespace).reverse)

/-- Whether `xs` starts with `pat`. -/
def listStartsWith : List Char → List Char → Bool
  | [], _ => true
  | _ :: _, [] => false
  | p :: ps, x :: xs => p = x && listStartsWith ps xs

/-- Whether `xs` contains `pat` as a contiguous sublist. -/
def listContainsSub (pat : List Char) : List Char → Bool
  | [] => listStartsWith pat []
  | x :: xs => listStartsWith pat (x :: xs) || listContainsSub pat xs

/-- JavaScript `s.includes(sub)`. -/
def jsIncludes (s sub : String) : Bool :=
  listContainsSub sub.toList s.toList

/-- JavaScript `s.startsWith(prefix)`. -/
def jsStartsWith (s pre : String) : Bool :=
  listStartsWith pre.toList s.toList

/-- ASCII lower-casing of a string, as applied to HTTP header names. -/
def asciiLower (s : String) : String :=
  String.mk (s.toList.map (fun c =>
    if 65 ≤ c.toNat ∧ c.toNat ≤ 90 then Char.ofNat (c.toNat + 32) else c))

/-! ## JavaScript numbers -/

/-- A JavaScript number: a rational value or NaN.  Floating-point rounding of
exact rational results is not modelled; infinities do not arise on the paths
embedded here. -/
inductive JNum where
  | nan : JNum
  | val : ℚ → JNum
deriving DecidableEq, Repr

namespace JNum

def add : JNum → JNum → JNum
  | val a, val b => val (a + b)
  | _, _ => nan

def sub : JNum → JNum → JNum
  | val a, val b => val (a - b)
  | _, _ => nan

def mul : JNum → JNum → JNum
  | val a, val b => val (a * b)
  | _, _ => nan

def div : JNum → JNum → JNum
  | val a, val b => val (a / b)
  | _, _ => nan

/-- `Math.max` (returns NaN if either argument is NaN). -/
def jmax : JNum → JNum → JNum
  | val a, val b => val (max a b)
  | _, _ => nan

/-- `Math.min` (returns NaN if either argument is NaN). -/
def jmin : JNum → JNum → JNum
  | val a, val b => val (min a b)
  | _, _ => nan

/-- `Math.round` (half-up, NaN-propagating). -/
def jround : JNum → JNum
  | val a => val ((⌊a + 1/2⌋ : ℤ) : ℚ)
  | nan => nan

/-- The comparison `a <= b`; false whenever an operand is NaN. -/
def leb : JNum → JNum → Bool
  | val a, val b => decide (a ≤ b)
  | _, _ => false

/-- The comparison `a < b`; false whenever an operand is NaN. -/
def ltb : JNum → JNum → Bool
  | val a, val b => decide (a < b)
  | _, _ => false

/-- JavaScript `x || 0`: NaN (and 0) are falsy, so NaN collapses to 0. -/
def orZero : JNum → JNum
  | nan => val 0
  | val a => val a

end JNum

/-! ## JavaScript `Number(string)` coercion

`ToNumber` on strings: the string is trimmed; the empty string is 0; a
decimal literal (optional sign, digits, optional fraction, optional decimal
exponent) denotes its value; every other form is mapped to NaN (the rarely
used hex/octal/`Infinity` literal forms are collapsed into NaN in this
model). -/

def digitsToNat : List Char → Option ℕ
  | [] => some 0
  | c :: cs =>
    if 48 ≤ c.toNat ∧ c.toNat ≤ 57 then
      match digitsToNat cs with
      | some n => some (n * 10 + (c.toNat - 48))
      | none => none
    else none

/-- Value of a digit string read most-significant first. -/
def digitsVal (cs : List Char) : Option ℕ :=
  digitsToNat cs.reverse

def parseUnsignedDec (cs : List Char) : Option ℚ :=
  let intPart := cs.takeWhile (fun c => 48 ≤ c.toNat ∧ c.toNat ≤ 57)
  let rest := cs.dropWhile (fun c => 48 ≤ c.toNat ∧ c.toNat ≤ 57)
  match rest with
  | [] =>
    if intPart.isEmpty then none
    else (digitsVal intPart).map (fun n => (n : ℚ))
  | c :: frac =>
    if c.toNat = 46 then
      if frac.all (fun d => 48 ≤ d.toNat ∧ d.toNat ≤ 57) then
        if intPart.isEmpty ∧ frac.isEmpty then none
        else
          match digitsVal intPart, digitsVal frac with
          | some n, some f => some ((n : ℚ) + (f : ℚ) / ((10 : ℚ) ^ frac.length))
          | _, _ => none
      else none
    else none

def parseSignedDec (cs : List Char) : Option ℚ :=
  match cs with
  | c :: rest =>
    if c.toNat = 45 then (parseUnsignedDec rest).map (fun q => -q)
    else if c.toNat = 43 then parseUnsignedDec rest
    else parseUnsignedDec cs
  | [] => none

def parseExpPart (cs : List Char) : Option ℤ :=
  match cs with
  | c :: rest =>
    if c.toNat = 45 then (digitsVal rest).bind (fun n => if rest.isEmpty then none else some (-(n : ℤ)))
    else if c.toNat = 43 then (digitsVal rest).bind (fun n => if rest.isEmpty then none else some (n : ℤ))
    else (digitsVal cs).map (fun n => (n : ℤ))
  | [] => none

/-- `Number(s)` for a string `s`. -/
def strToNumber (s : String) : JNum :=
  let t := (jsTrim s).toList
  if t.isEmpty then .val 0
  else
    let mantissa := t.takeWhile (fun c => c.toNat ≠ 101 ∧ c.toNat ≠ 69)
    let rest := t.dropWhile (fun c => c.toNat ≠ 101 ∧ c.toNat ≠ 69)
    match parseSignedDec mantissa with
    | none => .nan
    | some m =>
      match rest with
      | [] => .val m
      | _ :: expPart =>
        match parseExpPart expPart with
        | some e => .val (m * (10 : ℚ) ^ e)
        | none => .nan

/-- `Number(v)` for a nullable string (`Number(null)` is `0`). -/
def optStrToNumber : Option String → JNum
  | none => .val 0
  | some s => strToNumber s

/-- The unary `+v` coercion applied to the possibly-undefined result of a
destructuring (`+undefined` is NaN). -/
def undefOrStrToNumber : Option String → JNum
  | none => .nan
  | some s => strToNumber s

/-! ## Headers

A `Headers` object is modelled by its header list: name/value pairs with the
names already byte-lowercased (the `Headers` constructor lowercases names).
`get` follows the WHATWG Fetch specification: it throws a `TypeError` when
the queried name is not an HTTP token, and otherwise returns the values of
all entries with that (case-insensitively compared) name joined by
`", "`. -/

abbrev HeadersL := List (String × String)

/-- Results of an operation that can throw a `TypeError`. -/
inductive EvalResult (α : Type) where
  | thrownTypeError : EvalResult α
  | value : α → EvalResult α
deriving DecidableEq, Repr

/-- HTTP token code points (RFC 9110 `tchar`). -/
def isTokenChar (c : Char) : Bool :=
  let n := c.toNat
  (48 ≤ n && n ≤ 57) || (65 ≤ n && n ≤ 90) || (97 ≤ n && n ≤ 122) ||
  n = 33 || n = 35 || n = 36 || n = 37 || n = 38 || n = 39 || n = 42 ||
  n = 43 || n = 45 || n = 46 || n = 94 || n = 95 || n = 96 || n = 124 || n = 126

/-- A valid HTTP header name: a non-empty token. -/
def isValidHeaderName (s : String) : Bool :=
  !s.toList.isEmpty && s.toList.all isTokenChar

/-- The combined value of a header in a header list, or `none` when absent
(the internal "get a header value" operation, without name validation). -/
def headersGetValue (hs : HeadersL) (name : String) : Option String :=
  let n := asciiLower name
  let vs := (hs.filter (fun p => p.1 = n)).map Prod.snd
  if vs.isEmpty then none else some (String.intercalate ", " vs)

/-- `Headers.prototype.get`: validates the name, then returns the combined
value or null. -/
def headersGet (hs : HeadersL) (name : String) : EvalResult (Option String) :=
  if isValidHeaderName name then .value (headersGetValue hs name)
  else .thrownTypeError

/-- `Headers.prototype.has` applied to a valid constant name. -/
def headersHas (hs : HeadersL) (name : String) : Bool :=
  (headersGetValue hs name).isSome

/-- `Headers.prototype.set` (replace all entries of the name by one entry;
the new entry takes the position of the first existing one, else is
appended). -/
def headersSet (hs : HeadersL) (name value : String) : HeadersL :=
  let n := asciiLower name
  if hs.any (fun p => p.1 = n) then
    (hs.filterMap (fun p => if p.1 = n then none else some p)).insertIdx
      (hs.findIdx (fun p => p.1 = n)) (n, value)
  else hs ++ [(n, value)]

/-! ## URLs, requests, responses -/

/-- A parsed `URL`, by components.  `search` includes its leading `?` when
non-empty and `hash` its leading `#`; clearing a component sets it to the
empty string, matching the `url.search = ''` / `url.hash = ''` setters. -/
structure UrlM where
  protocol : String
  host : String
  pathname : String
  search : String
  hash : String
deriving DecidableEq, Repr

/-- `url.toString()` / `url.href`. -/
def urlString (u : UrlM) : String :=
  u.protocol ++ "//" ++ u.host ++ u.pathname ++ u.search ++ u.hash

def urlClearHash (u : UrlM) : UrlM := { u with hash := "" }

def urlClearSearch (u : UrlM) : UrlM := { u with search := "" }

/-- A `Request` relevant to the embedded code: its parsed URL, method and
header list. -/
structure RequestM where
  url : UrlM
  method : String
  headers : HeadersL
deriving DecidableEq, Repr

/-- A `Response` relevant to the embedded code. -/
structure ResponseM where
  status : ℕ
  statusText : String
  headers : HeadersL
  body : Option (List ℕ)
  bodyUsed : Bool
deriving DecidableEq, Repr

/-- `CacheQueryOptions`. -/
structure CacheQueryOptions where
  ignoreMethod : Bool := false
  ignoreSearch : Bool := false
  ignoreVary : Bool := false
deriving DecidableEq, Repr

/-- The header-normalization function injected into the `Cache` constructor:
`(headerName, headerValue) -> normalizedValue`. -/
abbrev CacheHeaderNormalizer := String → Option String → Option String

/-! ## The matching predicate (`Cache.prototype._requestMatchesCachedItem`) -/

/-- Step 7 of the matching predicate: the loop over the comma-split fields of
the `Vary` header.  Mirrors the source: the field is compared trimmed against
`*`, but is passed untrimmed to `headers.get` on the cached request and on
the query, and untrimmed to the normalizer. -/
def varyLoop (norm : CacheHeaderNormalizer) (reqH queryH : HeadersL) :
    List String → EvalResult Bool
  | [] => .value true
  | f :: rest =>
    if jsTrim f = "*" then .value false
    else
      match headersGet reqH f with
      | .thrownTypeError => .thrownTypeError
      | .value v1 =>
        match headersGet queryH f with
        | .thrownTypeError => .thrownTypeError
        | .value v2 =>
          if norm f v1 ≠ norm f v2 then .value false
          else varyLoop norm reqH queryH rest

/-- `Cache.prototype._requestMatchesCachedItem(requestQuery, request,
response, options)` from src/cache.ts. -/
def requestMatchesCachedItem (norm : CacheHeaderNormalizer)
    (requestQuery request : RequestM) (response : Option ResponseM)
    (options : CacheQueryOptions) : EvalResult Bool :=
  if !options.ignoreMethod && request.method ≠ "GET" then .value false
  else
    let queryUrl := urlClearHash
      (if options.ignoreSearch then urlClearSearch requestQuery.url else requestQuery.url)
    let cachedUrl := urlClearHash
      (if options.ignoreSearch then urlClearSearch request.url else request.url)
    if urlString queryUrl ≠ urlString cachedUrl then .value false
    else
      match response with
      | none => .value true
      | some resp =>
        if options.ignoreVary then .value true
        else
          match headersGetValue resp.headers "vary" with
          | none => .value true
          | some varyHeader =>
            if varyHeader = "" then .value true
            else varyLoop norm request.headers requestQuery.headers (jsSplit ',' varyHeader)

/-- The comma-split fields of a response's `Vary` header (empty when the
header is absent or empty, i.e. when the source skips the vary loop). -/
def varyFields (resp : ResponseM) : List String :=
  match headersGetValue resp.headers "vary" with
  | none => []
  | some v => if v = "" then [] else jsSplit ',' v

/-! ## Expiration policy (`CachePersistenceBase.prototype._expiresIn`)

From the current base class (the variant with `s-maxage` support and the
`_maxExpireIn` ceiling).  `now` is the value of `Date.now()` and `dateParse`
models `(s) => new Date(s).getTime()` of the platform. -/

/-- The maximum TTL ceiling `_maxExpireIn` (30 days in milliseconds). -/
def maxExpireIn : ℚ := 2592000000

/-- The first comma-split `Cache-Control` part whose trimmed text before the
first `=` equals `name`: returns `some value?` for the first match (where
`value?` is the possibly-absent text after `=`), or `none` when no part
matches (the loop falls through). -/
def findDirectiveValue (parts : List String) (name : String) :
    Option (Option String) :=
  match parts with
  | [] => none
  | p :: rest =>
    let kv := jsSplit '=' (jsTrim p)
    if kv.headD "" = name then some (kv.get? 1)
    else findDirectiveValue rest name

/-- The `dateTime` value of `_expiresIn`: the parsed `Date` header when
present and truthy, else `now`. -/
def expiresInDateTime (now : ℚ) (dateParse : String → JNum) (hs : HeadersL) :
    JNum :=
  match headersGetValue hs "date" with
  | none => .val now
  | some d => if d = "" then .val now else dateParse d

/-- `_expiresIn(response)`: milliseconds left for the response to expire. -/
def expiresIn (now : ℚ) (dateParse : String → JNum) (hs : HeadersL) : JNum :=
  let ccBranch : Option JNum :=
    match headersGetValue hs "cache-control" with
    | none => none
    | some cc =>
      if cc = "" then none
      else
        let includesMaxAge := jsIncludes cc "max-age"
        let includesSharedMaxAge := jsIncludes cc "s-maxage"
        let priorityFieldName := if includesSharedMaxAge then "s-maxage" else "max-age"
        if includesMaxAge || includesSharedMaxAge then
          match findDirectiveValue (jsSplit ',' cc) priorityFieldName with
          | none => none
          | some value =>
            let dateTime : JNum := expiresInDateTime now dateParse hs
            let ageValue : JNum :=
              JNum.orZero (optStrToNumber (headersGetValue hs "age"))
            let correctedReceivedAge :=
              JNum.jmax (JNum.div (JNum.sub (.val now) dateTime) (.val 1000)) ageValue
            let msLeft :=
              JNum.jmax
                (JNum.mul (JNum.sub (undefOrStrToNumber value) correctedReceivedAge)
                  (.val 1000))
                (.val 0)
            some (JNum.jmin (JNum.jround msLeft) (.val maxExpireIn))
        else none
  match ccBranch with
  | some r => r
  | none =>
    match headersGetValue hs "expires" with
    | none => .val maxExpireIn
    | some e =>
      if e = "" then .val maxExpireIn
      else
        JNum.jmin
          (JNum.jround (JNum.jmax (JNum.sub (dateParse e) (.val now)) (.val 0)))
          (.val maxExpireIn)

/-- `_hasExpired(meta)`: `Date.now() > +meta.expires`. -/
def hasExpired (now : ℚ) (expires : String) : Bool :=
  JNum.ltb (strToNumber expires) (.val now)

/-! ## Plain records and keys -/

/-- `PlainReqRes`: the flat stored record.  `reqUrl` is stored in the source
as the serialized fragment-stripped URL string and is represented here by its
parsed components (URL parsing and serialization round-trip on the canonical
forms the code produces). -/
structure PlainRec where
  id : String
  expires : String
  created : String
  reqUrl : UrlM
  reqMethod : String
  reqHeaders : HeadersL
  resHeaders : HeadersL
  resStatus : String
  resStatusText : String
  resBody : Option (List ℕ)
deriving DecidableEq, Repr

/-- `_joinKey`: join key parts with `:`. -/
def joinKey (parts : List String) : String :=
  String.mk (joinCh ':' (parts.map String.toList))

/-- `_splitKey`: split a key string on `:`. -/
def splitKey (k : String) : List String :=
  (splitCh ':' k.toList).map (fun cs => String.mk cs)

/-- The 3-part index key of a full record key given as a string:
`_indexKey` with a string argument (split, take 3, join). -/
def indexKeyOfString (k : String) : String :=
  joinKey ((splitKey k).take 3)

/-- The 3-part index key of a key given as an array:
`_indexKey` with an array argument (`slice(0, 3)`, join). -/
def indexKeyOfList (key : List String) : String :=
  joinKey (key.take 3)

/-- `_persistenceKey(cacheName, request)` — the request/index key shape:
`['cachestorage', cacheName, digest(urlWithoutHashAndSearch)]`. -/
def persistenceKeyRequest (digest : String → String) (cacheName : String)
    (req : RequestM) : List String :=
  ["cachestorage", cacheName, digest (urlString (urlClearSearch (urlClearHash req.url)))]

/-- `_persistenceKey(cacheName, plainReqRes)` — the full record key shape:
the request key of the stored record plus its `id`. -/
def persistenceKeyPlain (digest : String → String) (cacheName : String)
    (rec : PlainRec) : List String :=
  ["cachestorage", cacheName,
    digest (urlString (urlClearSearch (urlClearHash rec.reqUrl))), rec.id]

/-- String rendering of a JavaScript number (`String(n)`); integers render
in decimal, NaN renders as `"NaN"`. -/
def jnumToString : JNum → String
  | .nan => "NaN"
  | .val q => if q.den = 1 then toString q.num else toString q

/-- `_pairToPlain(request, response)`: computes the TTL, refuses an expired
response (`expiresIn <= 0`), and otherwise builds the stored record.  The
fresh `id` and the `created` pair (epoch milliseconds and the
intra-millisecond counter) are effectful in the source and are passed in. -/
def pairToPlain (now : ℚ) (dateParse : String → JNum) (id : String)
    (created : ℚ × ℕ) (req : RequestM) (res : ResponseM) :
    Option (PlainRec × JNum) :=
  let ei := expiresIn now dateParse res.headers
  if JNum.leb ei (.val 0) then none
  else
    some ({
      id := id
      expires := jnumToString (JNum.add (.val created.1) ei)
      created := jnumToString (.val created.1) ++ "-" ++ toString created.2
      reqUrl := urlClearHash req.url
      reqMethod := req.method
      reqHeaders := req.headers
      resHeaders := res.headers
      resStatus := toString res.status
      resStatusText := res.statusText
      resBody := match res.body with
                 | none => none
                 | some bs => if bs.isEmpty then none else some bs
    }, ei)

/-- `_plainToRequest(plainReqRes)`. -/
def plainToRequest (rec : PlainRec) : RequestM :=
  { url := rec.reqUrl, method := rec.reqMethod, headers := rec.reqHeaders }

/-- `_plainToResponse(plainReqRes)`: rebuilds the response and sets the
`age` (elapsed seconds plus any upstream `age` captured at storage time) and
`x-cachestorage-id` headers. -/
def plainToResponse (now : ℚ) (rec : PlainRec) : ResponseM :=
  let createdMs := optStrToNumber ((jsSplit '-' rec.created).get? 0)
  let age : JNum :=
    match createdMs with
    | .nan => .nan
    | .val c => .val ((⌈(now - c) / 1000⌉ : ℤ) : ℚ)
  let upstreamAge :=
    JNum.orZero (optStrToNumber ((rec.resHeaders.find? (fun p => p.1 = "age")).map Prod.snd))
  { status := match strToNumber rec.resStatus with
              | .val q => q.num.toNat
              | .nan => 0
    statusText := rec.resStatusText
    headers := headersSet (headersSet rec.resHeaders "age"
        (jnumToString (JNum.add age upstreamAge)))
      "x-cachestorage-id" rec.id
    body := rec.resBody
    bodyUsed := false }

/-! ## String ordering and sorts

JavaScript `Array.prototype.sort()` without a comparator sorts strings by
code-unit lexicographic order; the keys sorted here are ASCII, where that
order coincides with code-point lexicographic order.  The sorts are modelled
by insertion sort, which computes the same result on the duplicate-free key
lists produced by the backend. -/

def charLeB : List Char → List Char → Bool
  | [], _ => true
  | _ :: _, [] => false
  | a :: as, b :: bs =>
    if a.toNat < b.toNat then true
    else if b.toNat < a.toNat then false
    else charLeB as bs

/-- Lexicographic string comparison `a <= b`. -/
def strLeB (a b : String) : Bool :=
  charLeB a.toList b.toList

/-- Strict lexicographic string comparison `a < b` (JavaScript `a > b` is
`strGtB` with the arguments swapped). -/
def strLtB (a b : String) : Bool :=
  strLeB a b && a ≠ b

theorem charLeB_total (a b : List Char) : charLeB a b = true ∨ charLeB b a = true := by
  induction a generalizing b with
  | nil => left; rfl
  | cons x xs ih =>
    cases b with
    | nil => right; rfl
    | cons y ys =>
      by_cases hxy : x.toNat < y.toNat
      · left; simp [charLeB, hxy]
      · by_cases hyx : y.toNat < x.toNat
        · right; simp [charLeB, hyx]
        · rcases ih ys with h | h
          · left; simp [charLeB, hxy, hyx, h]
          · right; simp [charLeB, hxy, hyx, h]

theorem strLeB_total (a b : String) : strLeB a b = true ∨ strLeB b a = true :=
  charLeB_total a.toList b.toList

theorem charLeB_trans : ∀ a b c : List Char,
    charLeB a b = true → charLeB b c = true → charLeB a c = true := by
  intro a
  induction a with
  | nil => intro b c _ _; rfl
  | cons x xs ih =>
    intro b c hab hbc
    cases b with
    | nil => simp [charLeB] at hab
    | cons y ys =>
      cases c with
      | nil => simp [charLeB] at hbc
      | cons z zs =>
        simp only [charLeB] at hab hbc ⊢
        by_cases hxy : x.toNat < y.toNat
        · by_cases hyz : y.toNat < z.toNat
          · rw [if_pos (show x.toNat < z.toNat by omega)]
          · by_cases hzy : z.toNat < y.toNat
            · rw [if_neg hyz, if_pos hzy] at hbc
              simp at hbc
            · rw [if_pos (show x.toNat < z.toNat by omega)]
        · by_cases hyx : y.toNat < x.toNat
          · rw [if_neg hxy, if_pos hyx] at hab
            simp at hab
          · by_cases hyz : y.toNat < z.toNat
            · rw [if_pos (show x.toNat < z.toNat by omega)]
            · by_cases hzy : z.toNat < y.toNat
              · rw [if_neg hyz, if_pos hzy] at hbc
                simp at hbc
              · rw [if_neg hxy, if_neg hyx] at hab
                rw [if_neg hyz, if_neg hzy] at hbc
                rw [if_neg (show ¬x.toNat < z.toNat by omega),
                  if_neg (show ¬z.toNat < x.toNat by omega)]
                exact ih ys zs hab hbc

theorem strLeB_trans (a b c : String) :
    strLeB a b = true → strLeB b c = true → strLeB a c = true :=
  charLeB_trans a.toList b.toList c.toList

/-- Insert a string into an ascending list (ascending insertion sort step). -/
def insertStr (x : String) : List String → List String
  | [] => [x]
  | y :: ys => if strLeB x y then x :: y :: ys else y :: insertStr x ys

/-- Ascending insertion sort of strings (the model of `Array.sort()`). -/
def insSortStr : List String → List String
  | [] => []
  | x :: xs => insertStr x (insSortStr xs)

theorem mem_insertStr (x : String) (l : List String) (y : String) :
    y ∈ insertStr x l → y = x ∨ y ∈ l := by
  induction l with
  | nil => intro h; simpa [insertStr] using h
  | cons z zs ih =>
    intro h
    simp only [insertStr] at h
    split at h
    · rcases List.mem_cons.mp h with h1 | h1
      · exact Or.inl h1
      · exact Or.inr h1
    · rcases List.mem_cons.mp h with h1 | h1
      · exact Or.inr (by simp [h1])
      · rcases ih h1 with h2 | h2
        · exact Or.inl h2
        · exact Or.inr (by simp [h2])

theorem sorted_insertStr (x : String) (l : List String)
    (h : l.Pairwise (fun a b => strLeB a b = true)) :
    (insertStr x l).Pairwise (fun a b => strLeB a b = true) := by
  induction l with
  | nil => simp [insertStr]
  | cons z zs ih =>
    rcases List.pairwise_cons.mp h with ⟨hz, hzs⟩
    by_cases hle : strLeB x z = true
    · simp only [insertStr, if_pos hle]
      refine List.pairwise_cons.mpr ⟨?_, h⟩
      intro b hb
      rcases List.mem_cons.mp hb with hb1 | hb1
      · rw [hb1]; exact hle
      · exact strLeB_trans x z b hle (hz b hb1)
    · simp only [insertStr, if_neg hle]
      refine List.pairwise_cons.mpr ⟨?_, ih hzs⟩
      intro b hb
      rcases mem_insertStr x zs b hb with h2 | h2
      · subst h2
        rcases strLeB_total z b with h3 | h3
        · exact h3
        · exact absurd h3 hle
      · exact hz b h2

theorem sorted_insSortStr (l : List String) :
    (insSortStr l).Pairwise (fun a b => strLeB a b = true) := by
  induction l with
  | nil => simp [insSortStr]
  | cons x xs ih => exact sorted_insertStr x (insSortStr xs) ih

/-- The element at index 3 of a split key (`a[3]`; the record id part). -/
def keyPart3 (parts : List String) : String :=
  parts.getD 3 ""

/-- Stable sort by the comparator `(a, b) => (a[3] > b[3] ? -1 : 1)` of
`_dbScan`: descending by the id part. -/
def insertDescBy3 (x : List String) : List (List String) → List (List String)
  | [] => [x]
  | y :: ys =>
    if strLtB (keyPart3 y) (keyPart3 x) then x :: y :: ys
    else y :: insertDescBy3 x ys

def sortDescBy3 : List (List String) → List (List String)
  | [] => []
  | x :: xs => insertDescBy3 x (sortDescBy3 xs)

/-! ## The in-memory backend (`CachePersistenceMemory`)

State: the `_storage` record map, the `_indexes` secondary index sets, and
the `_timers` map (JavaScript objects and `Set`s are modelled by
insertion-ordered association lists / duplicate-free lists).  The default
`compress: false` configuration is modelled: `_storage` holds the plain
records themselves. -/

structure MemState where
  storage : List (String × PlainRec)
  indexes : List (String × List String)
  timers : List (String × JNum)
deriving DecidableEq, Repr

def emptyMemState : MemState := ⟨[], [], []⟩

def assocGet {α : Type} (k : String) (l : List (String × α)) : Option α :=
  (l.find? (fun p => p.1 = k)).map Prod.snd

def assocHas {α : Type} (k : String) (l : List (String × α)) : Bool :=
  l.any (fun p => p.1 = k)

/-- Object property write: overwrite in place, else append. -/
def assocSet {α : Type} (k : String) (v : α) (l : List (String × α)) :
    List (String × α) :=
  if assocHas k l then l.map (fun p => if p.1 = k then (k, v) else p)
  else l ++ [(k, v)]

/-- Object property delete. -/
def assocErase {α : Type} (k : String) (l : List (String × α)) :
    List (String × α) :=
  l.filter (fun p => p.1 ≠ k)

/-- `setTimeout` clamp bound `_maxInteger = 2 ** 31 - 1`. -/
def maxInteger : ℚ := 2147483647

/-- `_dbSet(key, value, expiresIn)`: store the record, add its key to the
index set of its 3-part index key (derived from the joined string), and
(re)schedule the removal timer with delay `min(expiresIn, maxInteger)`. -/
def dbSet (key : List String) (value : PlainRec) (ei : JNum) (st : MemState) :
    MemState :=
  let persistenceKey := joinKey key
  let storage := assocSet persistenceKey value st.storage
  let indexKey := indexKeyOfString persistenceKey
  let index := (assocGet indexKey st.indexes).getD []
  let index2 := if persistenceKey ∈ index then index else index ++ [persistenceKey]
  let indexes := assocSet indexKey index2 st.indexes
  let timers := assocSet persistenceKey (JNum.jmin ei (.val maxInteger)) st.timers
  ⟨storage, indexes, timers⟩

/-- The shared body of `_dbDel`, parameterized by the joined record key and
by the index key the source derived for it. -/
def dbDelCore (persistenceKey indexKey : String) (st : MemState) :
    Bool × MemState :=
  let hasDeleted := assocHas persistenceKey st.storage
  let timers := assocErase persistenceKey st.timers
  let storage := assocErase persistenceKey st.storage
  let indexes :=
    match assocGet indexKey st.indexes with
    | none => st.indexes
    | some ms =>
      let ms2 := ms.erase persistenceKey
      if ms2.isEmpty then assocErase indexKey st.indexes
      else assocSet indexKey ms2 st.indexes
  (hasDeleted, ⟨storage, indexes, timers⟩)

/-- `_dbDel(key)` called with a string key: the index key is derived by
splitting the string and taking the first three segments. -/
def dbDelString (k : String) (st : MemState) : Bool × MemState :=
  dbDelCore k (indexKeyOfString k) st

/-- `_dbDel(key)` called with an array key: the index key is derived by
`key.slice(0, 3)` on the array itself. -/
def dbDelList (key : List String) (st : MemState) : Bool × MemState :=
  dbDelCore (joinKey key) (indexKeyOfList key) st

/-- `_dbKeys(key)`: the members of the request's index set, sorted and
reversed (`[...index].sort().reverse()`). -/
def dbKeys (st : MemState) (key : List String) : List String :=
  let persistenceKey := joinKey key
  let indexKey := indexKeyOfString persistenceKey
  let index := (assocGet indexKey st.indexes).getD []
  (insSortStr index).reverse

/-- `_dbScan(key)`: all member keys of every index whose key starts with the
joined prefix, split, sorted by the comparator `(a, b) => (a[3] > b[3] ? -1 : 1)`
(descending id), and joined again. -/
def dbScan (st : MemState) (key : List String) : List String :=
  let persistenceKey := joinKey key
  let found := (st.indexes.filter (fun p => jsStartsWith p.1 persistenceKey)).flatMap
    (fun p => p.2.map splitKey)
  (sortDescBy3 found).map joinKey

/-- `CachePersistenceMemory.prototype.put(cacheName, request, response)`. -/
def memPut (digest : String → String) (now : ℚ) (dateParse : String → JNum)
    (id : String) (created : ℚ × ℕ) (cacheName : String) (req : RequestM)
    (res : ResponseM) (st : MemState) : Bool × MemState :=
  match pairToPlain now dateParse id created req res with
  | none => (false, st)
  | some (rec, ei) =>
    (true, dbSet (persistenceKeyPlain digest cacheName rec) rec ei st)

/-- `_persistenceKey(cacheName, request, response)` for a live response: the
record id is appended only when the response carries the (truthy)
`x-cachestorage-id` marker header. -/
def persistenceKeyRequestResponse (digest : String → String) (cacheName : String)
    (req : RequestM) (res : ResponseM) : List String :=
  persistenceKeyRequest digest cacheName req ++
    (match headersGetValue res.headers "x-cachestorage-id" with
     | some id => if id = "" then [] else [id]
     | none => [])

/-- `CachePersistenceMemory.prototype.delete(cacheName, request, response?)`. -/
def memDelete (digest : String → String) (cacheName : String) (req : RequestM)
    (res : Option ResponseM) (st : MemState) : Bool × MemState :=
  match res with
  | none =>
    let keys := dbKeys st (persistenceKeyRequest digest cacheName req)
    keys.foldl (fun acc k =>
      let r := dbDelString k acc.2
      (acc.1 || r.1, r.2)) (false, st)
  | some r =>
    dbDelList (persistenceKeyRequestResponse digest cacheName req r) st

/-- The plain records yielded by `CachePersistenceMemory.prototype.get`:
the records of the request's index keys, skipping missing and expired
records. -/
def memGetRecords (digest : String → String) (now : ℚ) (cacheName : String)
    (req : RequestM) (st : MemState) : List PlainRec :=
  ((dbKeys st (persistenceKeyRequest digest cacheName req)).filterMap
    (fun k => assocGet k st.storage)).filter
    (fun r => !hasExpired now r.expires)

/-- The plain records yielded by
`CachePersistenceMemory.prototype[Symbol.asyncIterator]`: the records of the
scanned keys, skipping only missing records (there is no expiry check on
this path). -/
def memIterRecords (cacheName : String) (st : MemState) : List PlainRec :=
  (dbScan st ["cachestorage", cacheName]).filterMap
    (fun k => assocGet k st.storage)

/-! ## The Redis backend's `_dbKeys`

The per-request index is a Redis sorted set (score: numeric encoding of
`created`); `_dbKeys` pages through it with
`ZRANGE indexKey -inf +inf BYSCORE LIMIT offset count`, which returns
members ordered by ascending score.  The sorted set is modelled by its
ascending (score, member) list; the pagination loop is modelled with fuel
(one unit per round trip, `zset.length + 1` is always enough). -/

def zinsert (p : ℤ × String) : List (ℤ × String) → List (ℤ × String)
  | [] => [p]
  | q :: qs =>
    if p.1 < q.1 ∨ (p.1 = q.1 ∧ strLeB p.2 q.2) then p :: q :: qs
    else q :: zinsert p qs

/-- `ZADD` (re-inserting an existing member updates its score). -/
def zadd (score : ℤ) (member : String) (z : List (ℤ × String)) :
    List (ℤ × String) :=
  zinsert (score, member) (z.filter (fun q => q.2 ≠ member))

def redisDbKeysLoop (members : List String) (count : ℕ) :
    ℕ → ℕ → List String
  | 0, _ => []
  | fuel + 1, offset =>
    let result := (members.drop offset).take count
    if result.isEmpty then []
    else result ++ redisDbKeysLoop members count fuel (offset + result.length)

/-- `CachePersistenceRedis.prototype._dbKeys(key, keysLimit)`: the member
keys of the request's index sorted set, pulled in ascending-score windows of
`max(keysLimit, 1)`. -/
def redisDbKeys (z : List (ℤ × String)) (keysLimit : ℕ) : List String :=
  redisDbKeysLoop (z.map Prod.snd) (max keysLimit 1) (z.length + 1) 0

theorem redisDbKeysLoop_eq_drop (members : List String) (count : ℕ)
    (hc : 1 ≤ count) :
    ∀ fuel offset, members.length - offset < fuel →
      redisDbKeysLoop members count fuel offset = members.drop offset := by
  intro fuel
  induction fuel with
  | zero => intro offset h; omega
  | succ n ih =>
    intro offset h
    simp only [redisDbKeysLoop]
    by_cases he : ((members.drop offset).take count).isEmpty
    · rw [if_pos he]
      rcases List.isEmpty_iff.mp he with htake
      have hd : members.drop offset = [] := by
        cases hdrop : members.drop offset with
        | nil => rfl
        | cons a l =>
          rw [hdrop] at htake
          cases count with
          | zero => omega
          | succ m => simp [List.take] at htake
      exact hd.symm
    · rw [if_neg he]
      have hpos : 0 < ((members.drop offset).take count).length := by
        cases hh : (members.drop offset).take count with
        | nil => simp [hh] at he
        | cons a l => simp [hh]
      have hlen : ((members.drop offset).take count).length =
          min count (members.length - offset) := by
        simp [List.length_take]
      rw [ih (offset + ((members.drop offset).take count).length) (by omega)]
      have hdd : members.drop (offset + ((members.drop offset).take count).length) =
          (members.drop offset).drop ((members.drop offset).take count).length := by
        rw [List.drop_drop, Nat.add_comm]
      rw [hdd]
      rcases le_or_lt count (members.drop offset).length with hcl | hcl
      · have hlen2 : ((members.drop offset).take count).length = count := by
          rw [List.length_take]
          omega
        rw [hlen2, List.take_append_drop]
      · have h1 : (members.drop offset).take count = members.drop offset := by
          apply List.take_of_length_le
          omega
        rw [h1, List.drop_length, List.append_nil]

/-- The Redis `_dbKeys` pagination returns exactly the sorted set's members
in ascending score order. -/
theorem redisDbKeys_eq_members (z : List (ℤ × String)) (keysLimit : ℕ) :
    redisDbKeys z keysLimit = z.map Prod.snd := by
  have := redisDbKeysLoop_eq_drop (z.map Prod.snd) (max keysLimit 1)
    (le_max_right _ _) (z.length + 1) 0 (by simp)
  simpa [redisDbKeys] using this

/-! ## UTF-8 (`TextEncoder` / `TextDecoder`)

`TextEncoder.prototype.encode` is the UTF-8 encoder on the scalar values of
the string; `TextDecoder.prototype.decode` (without `fatal`) is the WHATWG
UTF-8 decoder, substituting U+FFFD for each error. -/

/-- A Unicode scalar value (a code point that is not a surrogate). -/
def isScalarValue (c : ℕ) : Prop :=
  c < 0x110000 ∧ ¬(0xD800 ≤ c ∧ c ≤ 0xDFFF)

instance (c : ℕ) : Decidable (isScalarValue c) := by
  unfold isScalarValue; infer_instance

/-- UTF-8 encoding of one scalar value. -/
def utf8EncodeChar (c : ℕ) : List ℕ :=
  if c < 0x80 then [c]
  else if c < 0x800 then [0xC0 + c / 64, 0x80 + c % 64]
  else if c < 0x10000 then
    [0xE0 + c / 4096, 0x80 + (c / 64) % 64, 0x80 + c % 64]
  else
    [0xF0 + c / 262144, 0x80 + (c / 4096) % 64, 0x80 + (c / 64) % 64,
      0x80 + c % 64]

/-- UTF-8 encoding of a list of scalar values. -/
def utf8Encode (cps : List ℕ) : List ℕ :=
  cps.flatMap utf8EncodeChar

/-- The WHATWG UTF-8 decoder with replacement: decodes a byte list to a code
point list, emitting U+FFFD at each error; on an invalid continuation byte
the offending byte is reprocessed (the "prepend to stream" rule), on an
invalid leading byte one byte is consumed, and a truncated sequence at the
end of input produces one U+FFFD. -/
def utf8Decode : List ℕ → List ℕ
  | [] => []
  | b :: rest =>
    if b ≤ 0x7F then b :: utf8Decode rest
    else if 0xC2 ≤ b ∧ b ≤ 0xDF then
      match rest with
      | [] => [0xFFFD]
      | c :: r2 =>
        if 0x80 ≤ c ∧ c ≤ 0xBF then
          ((b - 0xC0) * 64 + (c - 0x80)) :: utf8Decode r2
        else 0xFFFD :: utf8Decode (c :: r2)
    else if 0xE0 ≤ b ∧ b ≤ 0xEF then
      match rest with
      | [] => [0xFFFD]
      | c :: r2 =>
        if (if b = 0xE0 then 0xA0 else 0x80) ≤ c ∧
            c ≤ (if b = 0xED then 0x9F else 0xBF) then
          match r2 with
          | [] => [0xFFFD]
          | d :: r3 =>
            if 0x80 ≤ d ∧ d ≤ 0xBF then
              ((b - 0xE0) * 4096 + (c - 0x80) * 64 + (d - 0x80)) :: utf8Decode r3
            else 0xFFFD :: utf8Decode (d :: r3)
        else 0xFFFD :: utf8Decode (c :: r2)
    else if 0xF0 ≤ b ∧ b ≤ 0xF4 then
      match rest with
      | [] => [0xFFFD]
      | c :: r2 =>
        if (if b = 0xF0 then 0x90 else 0x80) ≤ c ∧
            c ≤ (if b = 0xF4 then 0x8F else 0xBF) then
          match r2 with
          | [] => [0xFFFD]
          | d :: r3 =>
            if 0x80 ≤ d ∧ d ≤ 0xBF then
              match r3 with
              | [] => [0xFFFD]
              | e :: r4 =>
                if 0x80 ≤ e ∧ e ≤ 0xBF then
                  ((b - 0xF0) * 262144 + (c - 0x80) * 4096 + (d - 0x80) * 64 +
                    (e - 0x80)) :: utf8Decode r4
                else 0xFFFD :: utf8Decode (e :: r4)
            else 0xFFFD :: utf8Decode (d :: r3)
        else 0xFFFD :: utf8Decode (c :: r2)
    else 0xFFFD :: utf8Decode rest
termination_by l => l.length
decreasing_by all_goals (simp_wf <;> omega)

set_option maxRecDepth 4000 in
theorem utf8Decode_ascii (c : ℕ) (h : c ≤ 0x7F) (tail : List ℕ) :
    utf8Decode (c :: tail) = c :: utf8Decode tail := by
  conv_lhs => unfold utf8Decode
  rw [if_pos h]

set_option maxRecDepth 4000 in
theorem utf8Decode_two (c : ℕ) (h1 : 0x80 ≤ c) (h2 : c < 0x800) (tail : List ℕ) :
    utf8Decode ((0xC0 + c / 64) :: (0x80 + c % 64) :: tail) =
      c :: utf8Decode tail := by
  conv_lhs => unfold utf8Decode
  rw [if_neg (by omega), if_pos (by constructor <;> omega)]
  simp only []
  rw [if_pos (by constructor <;> omega)]
  congr 1
  omega

set_option maxRecDepth 4000 in
theorem utf8Decode_three (c : ℕ) (h1 : 0x800 ≤ c) (h2 : c < 0x10000)
    (hs : ¬(0xD800 ≤ c ∧ c ≤ 0xDFFF)) (tail : List ℕ) :
    utf8Decode ((0xE0 + c / 4096) :: (0x80 + (c / 64) % 64) ::
        (0x80 + c % 64) :: tail) =
      c :: utf8Decode tail := by
  have hd1 : c / 4096 = (c / 64) / 64 := by
    rw [Nat.div_div_eq_div_mul]
  have hq : c / 4096 ≤ 15 := by omega
  conv_lhs => unfold utf8Decode
  rw [if_neg (by omega), if_neg (by omega), if_pos (by constructor <;> omega)]
  simp only []
  have hcont : (if 0xE0 + c / 4096 = 0xE0 then 0xA0 else 0x80) ≤
      0x80 + (c / 64) % 64 ∧
      0x80 + (c / 64) % 64 ≤ (if 0xE0 + c / 4096 = 0xED then 0x9F else 0xBF) := by
    constructor
    · split
      · next hvv =>
        have hz : c / 4096 = 0 := by omega
        omega
      · omega
    · split
      · next hvv =>
        have h13 : c / 4096 = 13 := by omega
        have hcc : c < 0xD800 := by
          by_contra hcc2
          exact hs ⟨by omega, by omega⟩
        omega
      · omega
  rw [if_pos hcont, if_pos (by constructor <;> omega)]
  congr 1
  omega

set_option maxRecDepth 4000 in
theorem utf8Decode_four (c : ℕ) (h1 : 0x10000 ≤ c) (h2 : c < 0x110000)
    (tail : List ℕ) :
    utf8Decode ((0xF0 + c / 262144) :: (0x80 + (c / 4096) % 64) ::
        (0x80 + (c / 64) % 64) :: (0x80 + c % 64) :: tail) =
      c :: utf8Decode tail := by
  have hd1 : c / 262144 = (c / 4096) / 64 := by
    rw [Nat.div_div_eq_div_mul]
  have hd2 : c / 4096 = (c / 64) / 64 := by
    rw [Nat.div_div_eq_div_mul]
  have hq : c / 262144 ≤ 4 := by omega
  conv_lhs => unfold utf8Decode
  rw [if_neg (by omega), if_neg (by omega), if_neg (by omega),
    if_pos (by constructor <;> omega)]
  simp only []
  have hcont : (if 0xF0 + c / 262144 = 0xF0 then 0x90 else 0x80) ≤
      0x80 + (c / 4096) % 64 ∧
      0x80 + (c / 4096) % 64 ≤ (if 0xF0 + c / 262144 = 0xF4 then 0x8F else 0xBF) := by
    constructor
    · split
      · next hvv =>
        have hz : c / 262144 = 0 := by omega
        omega
      · omega
    · split
      · next hvv =>
        have h4 : c / 262144 = 4 := by omega
        omega
      · omega
  rw [if_pos hcont, if_pos (by constructor <;> omega),
    if_pos (by constructor <;> omega)]
  congr 1
  omega

/-- Decoding inverts encoding on scalar values. -/
theorem utf8Decode_utf8Encode (cps : List ℕ) (h : ∀ c ∈ cps, isScalarValue c) :
    utf8Decode (utf8Encode cps) = cps := by
  induction cps with
  | nil => simp [utf8Encode, utf8Decode]
  | cons c rest ih =>
    have hc : isScalarValue c := h c (by simp)
    have hrest : utf8Decode (utf8Encode rest) = rest :=
      ih (fun x hx => h x (by simp [hx]))
    have hflat : utf8Encode (c :: rest) = utf8EncodeChar c ++ utf8Encode rest := by
      simp [utf8Encode]
    rw [hflat]
    by_cases ha : c < 0x80
    · rw [show utf8EncodeChar c = [c] from by simp [utf8EncodeChar, ha]]
      rw [List.cons_append, List.nil_append, utf8Decode_ascii c (by omega), hrest]
    · by_cases hb : c < 0x800
      · rw [show utf8EncodeChar c = [0xC0 + c / 64, 0x80 + c % 64] from by
          simp [utf8EncodeChar, ha, hb]]
        simpa [hrest] using utf8Decode_two c (by omega) hb (utf8Encode rest)
      · by_cases hcc : c < 0x10000
        · rw [show utf8EncodeChar c =
              [0xE0 + c / 4096, 0x80 + (c / 64) % 64, 0x80 + c % 64] from by
            simp [utf8EncodeChar, ha, hb, hcc]]
          simpa [hrest] using
            utf8Decode_three c (by omega) hcc hc.2 (utf8Encode rest)
        · rw [show utf8EncodeChar c =
              [0xF0 + c / 262144, 0x80 + (c / 4096) % 64, 0x80 + (c / 64) % 64,
                0x80 + c % 64] from by simp [utf8EncodeChar, ha, hb, hcc]]
          simpa [hrest] using
            utf8Decode_four c (by omega) hc.1 (utf8Encode rest)

/-- Valid UTF-8 byte lists: exactly the encodings of scalar-value lists. -/
def Utf8Valid (bs : List ℕ) : Prop :=
  ∃ cps, (∀ c ∈ cps, isScalarValue c) ∧ utf8Encode cps = bs

/-- On valid UTF-8 bytes, decode-then-encode is the identity. -/
theorem utf8Encode_utf8Decode_of_valid (bs : List ℕ) (h : Utf8Valid bs) :
    utf8Encode (utf8Decode bs) = bs := by
  rcases h with ⟨cps, hall, henc⟩
  rw [← henc, utf8Decode_utf8Encode cps hall]

/-! ## The Deno KV backend's `_serialize` / `_parse` codec pair

The stored record as serialized: all meta/string fields, the header entry
lists, and the optional binary bodies.  The wire codecs themselves
(`JSON.stringify`/`JSON.parse` and msgpack-lite with the `uint8array` codec)
are external collaborators and are modelled at the level of the structured
value they serialize (on which each pair is an identity by its contract);
the body transformations performed by `_serialize`/`_parse` themselves — the
`TextDecoder`/`TextEncoder` round trip through a JavaScript string on the
JSON path, applied only to truthy fields — are modelled exactly. -/

structure PlainSerRec where
  id : String
  expires : String
  created : String
  reqUrl : String
  reqMethod : String
  reqHeaders : List (String × String)
  resHeaders : List (String × String)
  resStatus : String
  resStatusText : String
  reqBody : Option (List ℕ)
  resBody : Option (List ℕ)
deriving DecidableEq, Repr

/-- The JSON wire value of a record: the same fields, except that each
present body has been decoded to a JavaScript string (represented by its
code points) by `this._decoder.decode(...)`. -/
structure JsonWireRec where
  id : String
  expires : String
  created : String
  reqUrl : String
  reqMethod : String
  reqHeaders : List (String × String)
  resHeaders : List (String × String)
  resStatus : String
  resStatusText : String
  reqBody : Option (List ℕ)
  resBody : Option (List ℕ)
deriving DecidableEq, Repr

/-- A body field value after `_parse`: either binary bytes (a `Uint8Array`)
or still a JavaScript string (its code points), as left behind by the falsy
check on an empty string. -/
inductive BodyVal where
  | bytes : List ℕ → BodyVal
  | text : List ℕ → BodyVal
deriving DecidableEq, Repr

/-- A record as returned by `_parse`: body fields may be bytes or a leftover
string. -/
structure ParsedRec where
  id : String
  expires : String
  created : String
  reqUrl : String
  reqMethod : String
  reqHeaders : List (String × String)
  resHeaders : List (String × String)
  resStatus : String
  resStatusText : String
  reqBody : Option BodyVal
  resBody : Option BodyVal
deriving DecidableEq, Repr

/-- A `PlainSerRec` viewed as a `ParsedRec` (bodies are `Uint8Array`s). -/
def PlainSerRec.asParsed (r : PlainSerRec) : ParsedRec :=
  { r with reqBody := r.reqBody.map BodyVal.bytes
           resBody := r.resBody.map BodyVal.bytes }

/-- `_serialize` with `compress: false`: `JSON.stringify` of the record with
every present (truthy) body replaced by its `TextDecoder` string. -/
def serializeJsonDenoKv (r : PlainSerRec) : JsonWireRec :=
  { r with reqBody := r.reqBody.map utf8Decode
           resBody := r.resBody.map utf8Decode }

/-- `_parse` with `compress: false`: `JSON.parse`, then each truthy
(non-empty) body string is re-encoded to a `Uint8Array`; an empty body
string is falsy and remains a string. -/
def parseJsonDenoKv (w : JsonWireRec) : ParsedRec :=
  { w with
    reqBody := w.reqBody.map (fun cps =>
      if cps.isEmpty then BodyVal.text cps else BodyVal.bytes (utf8Encode cps))
    resBody := w.resBody.map (fun cps =>
      if cps.isEmpty then BodyVal.text cps else BodyVal.bytes (utf8Encode cps)) }

/-- `_serialize` with `compress: true`: msgpack-lite encoding of the record;
with the `uint8array` codec option, `Uint8Array` fields are stored as
byte-exact `bin` values, so the wire value is the record itself. -/
def serializeMsgpackDenoKv (r : PlainSerRec) : PlainSerRec := r

/-- `_parse` with `compress: true`: msgpack-lite decoding; `bin` values come
back as `Uint8Array`s. -/
def parseMsgpackDenoKv (r : PlainSerRec) : ParsedRec :=
  r.asParsed

/-! ## `Cache.prototype.put` validation and effect -/

inductive PutError where
  | invalidScheme : PutError
  | methodNotGet : PutError
  | status206 : PutError
  | varyStar : PutError
  | bodyUsed : PutError
deriving DecidableEq, Repr

inductive PutOutcome where
  /-- A validation step threw a `TypeError`; the operation was aborted
  before anything was enqueued. -/
  | rejected : PutError → PutOutcome
  /-- The queued operation ran to completion. -/
  | stored : PutOutcome
  /-- The queued operation itself threw (the drain loop logs and continues);
  nothing was stored. -/
  | opFailed : PutOutcome
deriving DecidableEq, Repr

/-- The first stored record matching the request (the queued operation's
`await this.match(request)`, which is `_matchMax(1, ...)` over the
persistence `get` sequence), propagating a thrown `TypeError`. -/
def findFirstMatch (norm : CacheHeaderNormalizer) (now : ℚ) (req : RequestM) :
    List PlainRec → EvalResult (Option PlainRec)
  | [] => .value none
  | rec :: rest =>
    match requestMatchesCachedItem norm req (plainToRequest rec)
        (some (plainToResponse now rec)) {} with
    | .thrownTypeError => .thrownTypeError
    | .value true => .value (some rec)
    | .value false => findFirstMatch norm now req rest

/-- `Cache.prototype.put(requestOrUrl, response)` over the in-memory
backend: the validation chain (in source order), then the queued operation
(match, delete the matched response, store the new pair). -/
def cachePut (norm : CacheHeaderNormalizer) (digest : String → String)
    (now : ℚ) (dateParse : String → JNum) (id : String) (created : ℚ × ℕ)
    (cacheName : String) (req : RequestM) (res : ResponseM) (st : MemState) :
    PutOutcome × MemState :=
  if req.url.protocol ≠ "http:" ∧ req.url.protocol ≠ "https:" then
    (.rejected .invalidScheme, st)
  else if req.method ≠ "GET" then (.rejected .methodNotGet, st)
  else if res.status = 206 then (.rejected .status206, st)
  else if (match headersGetValue res.headers "vary" with
           | some v => v ≠ "" && (jsSplit ',' v).any (fun f => jsTrim f = "*")
           | none => false) then (.rejected .varyStar, st)
  else if res.body.isSome ∧ res.bodyUsed then (.rejected .bodyUsed, st)
  else
    match findFirstMatch norm now req
        (memGetRecords digest now cacheName req st) with
    | .thrownTypeError => (.opFailed, st)
    | .value cached =>
      let st1 := match cached with
                 | some rec =>
                   (memDelete digest cacheName req
                     (some (plainToResponse now rec)) st).2
                 | none => st
      (.stored, (memPut digest now dateParse id created cacheName req res st1).2)

/-- `Cache.prototype.keys()` with no request over the in-memory backend:
the stored requests in full-iteration order. -/
def cacheKeysAll (cacheName : String) (st : MemState) : List RequestM :=
  (memIterRecords cacheName st).map plainToRequest

/-! ## Lemmas about the vary loop -/

theorem varyLoop_value_true_iff (norm : CacheHeaderNormalizer)
    (rH qH : HeadersL) (fs : List String)
    (h : ∀ f ∈ fs, isValidHeaderName f = true) :
    varyLoop norm rH qH fs = .value true ↔
      ∀ f ∈ fs, jsTrim f ≠ "*" ∧
        norm f (headersGetValue rH f) = norm f (headersGetValue qH f) := by
  induction fs with
  | nil => simp [varyLoop]
  | cons f rest ih =>
    have hf : isValidHeaderName f = true := h f (by simp)
    have hrest : ∀ g ∈ rest, isValidHeaderName g = true :=
      fun g hg => h g (by simp [hg])
    simp only [varyLoop, headersGet, hf, if_pos]
    by_cases hstar : jsTrim f = "*"
    · rw [if_pos hstar]
      constructor
      · intro hh; exact absurd hh (by simp)
      · intro hh
        exact absurd hstar (hh f (by simp)).1
    · rw [if_neg hstar]
      by_cases heq : norm f (headersGetValue rH f) = norm f (headersGetValue qH f)
      · rw [if_neg (by simpa using heq)]
        rw [ih hrest]
        constructor
        · intro hh g hg
          rcases List.mem_cons.mp hg with hg1 | hg1
          · exact hg1 ▸ ⟨hstar, heq⟩
          · exact hh g hg1
        · intro hh g hg
          exact hh g (by simp [hg])
      · rw [if_pos (by simpa using heq)]
        constructor
        · intro hh; exact absurd hh (by simp)
        · intro hh
          exact absurd (hh f (by simp)).2 heq

theorem varyLoop_total (norm : CacheHeaderNormalizer) (rH qH : HeadersL)
    (fs : List String) (h : ∀ f ∈ fs, isValidHeaderName f = true) :
    ∃ b, varyLoop norm rH qH fs = .value b := by
  induction fs with
  | nil => exact ⟨true, rfl⟩
  | cons f rest ih =>
    have hf : isValidHeaderName f = true := h f (by simp)
    rcases ih (fun g hg => h g (by simp [hg])) with ⟨b, hb⟩
    simp only [varyLoop, headersGet, hf, if_pos]
    by_cases hstar : jsTrim f = "*"
    · exact ⟨false, by rw [if_pos hstar]⟩
    · rw [if_neg hstar]
      by_cases heq : norm f (headersGetValue rH f) = norm f (headersGetValue qH f)
      · exact ⟨b, by rw [if_neg (by simpa using heq)]; exact hb⟩
      · exact ⟨false, by rw [if_pos (by simpa using heq)]⟩

/-! ## C1 -/

/-- C1: for every query request, stored request, stored response and query
options — provided every comma-split field of the stored response's `Vary`
value is a valid HTTP header name (so that the untrimmed `headers.get`
calls do not throw) — the matching predicate returns `true` if and only if:
(a) `ignoreMethod` is set or the stored request's method is `GET`;
(b) the query URL and the stored URL, after always clearing the fragment and
additionally clearing the query string when `ignoreSearch` is set, are equal
as strings; and (c) the stored response is absent, or `ignoreVary` is set,
or the stored response has no `Vary` header, or every comma-separated field
name in the `Vary` header is, trimmed, different from `*`, and the injected
header normalizer maps the stored request's value and the query request's
value of that header to equal results. -/
theorem requestMatchesCachedItem_value_true_iff (norm : CacheHeaderNormalizer)
    (requestQuery request : RequestM) (response : Option ResponseM)
    (options : CacheQueryOptions)
    (hvalid : ∀ R, response = some R →
      ∀ f ∈ varyFields R, isValidHeaderName f = true) :
    requestMatchesCachedItem norm requestQuery request response options =
        .value true ↔
      ((options.ignoreMethod = true ∨ request.method = "GET") ∧
       urlString (urlClearHash (if options.ignoreSearch then
           urlClearSearch requestQuery.url else requestQuery.url)) =
         urlString (urlClearHash (if options.ignoreSearch then
           urlClearSearch request.url else request.url)) ∧
       (response = none ∨ options.ignoreVary = true ∨
        (∃ R, response = some R ∧ headersGetValue R.headers "vary" = none) ∨
        (∀ R, response = some R → ∀ f ∈ varyFields R,
          jsTrim f ≠ "*" ∧
          norm f (headersGetValue request.headers f) =
            norm f (headersGetValue requestQuery.headers f)))) := by
  unfold requestMatchesCachedItem
  by_cases hm : (!options.ignoreMethod && !(request.method = "GET" : Bool)) = true
  · rw [if_pos (by simpa using hm)]
    simp only [Bool.and_eq_true, Bool.not_eq_eq_eq_not, Bool.not_true,
      decide_eq_false_iff_not] at hm
    constructor
    · intro hh; exact absurd hh (by simp)
    · rintro ⟨hma, -, -⟩
      rcases hma with hma | hma
      · rw [hma] at hm
        simp at hm
      · rcases hm with ⟨-, hm2⟩
        simp [hma] at hm2
  · rw [if_neg (by simpa using hm)]
    have hmeth : options.ignoreMethod = true ∨ request.method = "GET" := by
      by_cases hig : options.ignoreMethod = true
      · exact Or.inl hig
      · right
        by_contra hne
        have hig2 : options.ignoreMethod = false := by simpa using hig
        exact hm (by simp [hig2, hne])
    by_cases hurl : urlString (urlClearHash (if options.ignoreSearch then
        urlClearSearch requestQuery.url else requestQuery.url)) =
      urlString (urlClearHash (if options.ignoreSearch then
        urlClearSearch request.url else request.url))
    · rw [if_neg (by simpa using hurl)]
      cases response with
      | none => simp [hmeth, hurl]
      | some R =>
        simp only []
        by_cases hiv : options.ignoreVary = true
        · rw [if_pos hiv]
          simp [hmeth, hurl, hiv]
        · rw [if_neg hiv]
          have hfields := hvalid R rfl
          cases hvary : headersGetValue R.headers "vary" with
          | none =>
            simp only []
            constructor
            · intro _
              exact ⟨hmeth, hurl, Or.inr (Or.inr (Or.inl ⟨R, rfl, hvary⟩))⟩
            · intro _; trivial
          | some v =>
            simp only []
            by_cases hve : v = ""
            · rw [if_pos hve]
              have hvf : varyFields R = [] := by
                simp [varyFields, hvary, hve]
              constructor
              · intro _
                exact ⟨hmeth, hurl, Or.inr (Or.inr (Or.inr
                  (by intro R2 hR2 f hf
                      have hR2e : R2 = R := (Option.some.inj hR2).symm
                      rw [hR2e, hvf] at hf
                      exact absurd hf (List.not_mem_nil f))))⟩
              · intro _; trivial
            · rw [if_neg hve]
              have hvf : varyFields R = jsSplit ',' v := by
                simp [varyFields, hvary, hve]
              rw [hvf] at hfields
              rw [varyLoop_value_true_iff norm request.headers
                requestQuery.headers (jsSplit ',' v) hfields]
              constructor
              · intro hloop
                refine ⟨hmeth, hurl, Or.inr (Or.inr (Or.inr ?_))⟩
                intro R2 hR2 f hf
                have hR2e : R2 = R := (Option.some.inj hR2).symm
                rw [hR2e, hvf] at hf
                exact hloop f hf
              · rintro ⟨-, -, hc⟩
                rcases hc with hc | hc | hc | hc
                · exact absurd hc (by simp)
                · exact absurd hc hiv
                · rcases hc with ⟨R2, hR2, hn⟩
                  have hR2e : R2 = R := (Option.some.inj hR2).symm
                  rw [hR2e] at hn
                  rw [hn] at hvary
                  exact absurd hvary (by simp)
                · intro f hf
                  exact hc R rfl f (by rw [hvf]; exact hf)
    · rw [if_pos (by simpa using hurl)]
      constructor
      · intro hh; exact absurd hh (by simp)
      · rintro ⟨-, hu, -⟩
        exact absurd hu hurl

/-- C1 witness: the iff applied at a concrete matching pair with a valid
`Vary` list. -/
theorem requestMatchesCachedItem_value_true_iff_witness :
    requestMatchesCachedItem (fun _ v => v)
      ⟨⟨"http:", "localhost", "/hello", "", ""⟩, "GET",
        [("accept-encoding", "gzip")]⟩
      ⟨⟨"http:", "localhost", "/hello", "", ""⟩, "GET",
        [("accept-encoding", "gzip")]⟩
      (some ⟨200, "OK", [("vary", "accept-encoding")], none, false⟩) {} =
      .value true := by
  rw [requestMatchesCachedItem_value_true_iff (fun _ v => v) _ _ _ _
    (by intro R hR f hf
        have hRe : R = ⟨200, "OK", [("vary", "accept-encoding")], none, false⟩ :=
          (Option.some.inj hR).symm
        rw [hRe] at hf
        revert f hf
        decide)]
  refine ⟨Or.inr rfl, rfl, Or.inr (Or.inr (Or.inr ?_))⟩
  intro R2 hR2 f hf
  have hR2e : R2 = ⟨200, "OK", [("vary", "accept-encoding")], none, false⟩ :=
    (Option.some.inj hR2).symm
  rw [hR2e] at hf
  revert f hf
  decide

/-- C1 counterexample: with `Vary: accept-encoding, user-agent` (a space
after the comma), the untrimmed field name ` user-agent` is not a valid
header name, so the predicate throws a `TypeError` instead of returning
`true`, although the method, URL and (trimmed) vary-field conditions of the
claim all hold. -/
theorem requestMatchesCachedItem_counterexample :
    requestMatchesCachedItem (fun _ v => v)
        ⟨⟨"http:", "localhost", "/a", "", ""⟩, "GET", []⟩
        ⟨⟨"http:", "localhost", "/a", "", ""⟩, "GET", []⟩
        (some ⟨200, "OK", [("vary", "accept-encoding, user-agent")], none,
          false⟩) {} =
      .thrownTypeError ∧
    (∀ f ∈ varyFields ⟨200, "OK", [("vary", "accept-encoding, user-agent")],
        none, false⟩,
      jsTrim f ≠ "*" ∧
      (fun (_ : String) (v : Option String) => v) f
          (headersGetValue ([] : HeadersL) f) =
        (fun (_ : String) (v : Option String) => v) f
          (headersGetValue ([] : HeadersL) f)) := by
  decide

/-! ## C10 -/

/-- C10 (amended): the matching predicate evaluates totally to a boolean —
never throwing — for every query request, stored request, stored response
and options whose `Vary` value comma-splits into untrimmed valid header
names (in particular, into names without whitespace after the commas);
with whitespace after a comma the untrimmed name is invalid and
`headers.get` throws. -/
theorem requestMatchesCachedItem_total (norm : CacheHeaderNormalizer)
    (requestQuery request : RequestM) (R : ResponseM)
    (options : CacheQueryOptions)
    (hvalid : ∀ f ∈ varyFields R, isValidHeaderName f = true) :
    ∃ b, requestMatchesCachedItem norm requestQuery request (some R) options =
      .value b := by
  unfold requestMatchesCachedItem
  by_cases hm : (!options.ignoreMethod && !(request.method = "GET" : Bool)) = true
  · exact ⟨false, by rw [if_pos (by simpa using hm)]⟩
  · rw [if_neg (by simpa using hm)]
    by_cases hurl : urlString (urlClearHash (if options.ignoreSearch then
        urlClearSearch requestQuery.url else requestQuery.url)) =
      urlString (urlClearHash (if options.ignoreSearch then
        urlClearSearch request.url else request.url))
    · rw [if_neg (by simpa using hurl)]
      simp only []
      by_cases hiv : options.ignoreVary = true
      · exact ⟨true, by rw [if_pos hiv]⟩
      · rw [if_neg hiv]
        cases hvary : headersGetValue R.headers "vary" with
        | none => exact ⟨true, by simp only []⟩
        | some v =>
          simp only []
          by_cases hve : v = ""
          · exact ⟨true, by rw [if_pos hve]⟩
          · rw [if_neg hve]
            apply varyLoop_total
            have hvf : varyFields R = jsSplit ',' v := by
              simp [varyFields, hvary, hve]
            rw [← hvf]
            exact hvalid
    · exact ⟨false, by rw [if_pos (by simpa using hurl)]⟩

/-- C10 witness: totality applied at a concrete input whose `Vary` list has
no whitespace. -/
theorem requestMatchesCachedItem_total_witness :
    ∃ b, requestMatchesCachedItem (fun _ v => v)
      ⟨⟨"http:", "localhost", "/w", "", ""⟩, "GET", []⟩
      ⟨⟨"http:", "localhost", "/w", "", ""⟩, "GET", []⟩
      (some ⟨200, "OK", [("vary", "accept-encoding,user-agent")], none,
        false⟩) {} = .value b :=
  requestMatchesCachedItem_total (fun _ v => v) _ _ _ _ (by decide)

/-- C10 counterexample: on the syntactically valid list
`Vary: x-first, x-second` the predicate throws a `TypeError` rather than
evaluating to a boolean. -/
theorem requestMatchesCachedItem_total_counterexample :
    requestMatchesCachedItem (fun _ v => v)
        ⟨⟨"https:", "example.com", "/x", "", ""⟩, "GET", [("x-first", "1")]⟩
        ⟨⟨"https:", "example.com", "/x", "", ""⟩, "GET", [("x-first", "1")]⟩
        (some ⟨200, "OK", [("vary", "x-first, x-second")], none, false⟩) {} =
      .thrownTypeError := by
  decide

/-! ## C2 -/

/-- The TTL computed from a `Cache-Control` directive value `v`:
`min(round(max((+v - correctedAge) * 1000, 0)), maxExpireIn)`. -/
def ccDirectiveTTL (now : ℚ) (dateParse : String → JNum) (hs : HeadersL)
    (v : Option String) : JNum :=
  JNum.jmin
    (JNum.jround (JNum.jmax
      (JNum.mul
        (JNum.sub (undefOrStrToNumber v)
          (JNum.jmax
            (JNum.div (JNum.sub (.val now) (expiresInDateTime now dateParse hs))
              (.val 1000))
            (JNum.orZero (optStrToNumber (headersGetValue hs "age")))))
        (.val 1000))
      (.val 0)))
    (.val maxExpireIn)

/-- The cache-control branch of `_expiresIn` falls through: whenever the
`Cache-Control` header is present, truthy and contains one of the
directive substrings, no comma-split entry carries the priority directive
name. -/
def ccFallsThrough (hs : HeadersL) : Prop :=
  ∀ cc, headersGetValue hs "cache-control" = some cc → cc ≠ "" →
    (jsIncludes cc "max-age" || jsIncludes cc "s-maxage") = true →
    findDirectiveValue (jsSplit ',' cc)
      (if jsIncludes cc "s-maxage" then "s-maxage" else "max-age") = none

theorem expiresIn_cc_eq (now : ℚ) (dp : String → JNum) (hs : HeadersL)
    (cc : String) (v : Option String)
    (hcc : headersGetValue hs "cache-control" = some cc) (hne : cc ≠ "")
    (hinc : (jsIncludes cc "max-age" || jsIncludes cc "s-maxage") = true)
    (hfind : findDirectiveValue (jsSplit ',' cc)
      (if jsIncludes cc "s-maxage" then "s-maxage" else "max-age") = some v) :
    expiresIn now dp hs = ccDirectiveTTL now dp hs v := by
  simp only [expiresIn, hcc]
  rw [if_neg hne]
  by_cases hsm : jsIncludes cc "s-maxage" = true
  · rw [if_pos hsm] at hfind
    simp [hsm, hfind, ccDirectiveTTL]
  · have hsm2 : jsIncludes cc "s-maxage" = false := by simpa using hsm
    have hma : jsIncludes cc "max-age" = true := by
      simpa [hsm2] using hinc
    rw [if_neg hsm] at hfind
    simp [hsm2, hma, hfind, ccDirectiveTTL]

theorem expiresIn_expires_eq (now : ℚ) (dp : String → JNum) (hs : HeadersL)
    (e : String) (hfall : ccFallsThrough hs)
    (hexp : headersGetValue hs "expires" = some e) (hene : e ≠ "") :
    expiresIn now dp hs =
      JNum.jmin (JNum.jround (JNum.jmax (JNum.sub (dp e) (.val now)) (.val 0)))
        (.val maxExpireIn) := by
  simp only [expiresIn]
  cases hcc : headersGetValue hs "cache-control" with
  | none => simp only [hexp, if_neg hene]
  | some cc =>
    simp only []
    by_cases hne : cc = ""
    · rw [if_pos hne]
      simp only [hexp, if_neg hene]
    · rw [if_neg hne]
      by_cases hinc : (jsIncludes cc "max-age" || jsIncludes cc "s-maxage") = true
      · rw [if_pos hinc, hfall cc hcc hne hinc]
        simp only [hexp, if_neg hene]
      · rw [if_neg hinc]
        simp only [hexp, if_neg hene]

theorem expiresIn_default_eq (now : ℚ) (dp : String → JNum) (hs : HeadersL)
    (hfall : ccFallsThrough hs)
    (hexp : ∀ e, headersGetValue hs "expires" = some e → e = "") :
    expiresIn now dp hs = .val maxExpireIn := by
  have hafter : (match headersGetValue hs "expires" with
      | none => JNum.val maxExpireIn
      | some e =>
        if e = "" then JNum.val maxExpireIn
        else
          JNum.jmin
            (JNum.jround (JNum.jmax (JNum.sub (dp e) (.val now)) (.val 0)))
            (.val maxExpireIn)) = JNum.val maxExpireIn := by
    cases hex : headersGetValue hs "expires" with
    | none => rfl
    | some e => simp only [hexp e hex, if_pos]
  simp only [expiresIn]
  cases hcc : headersGetValue hs "cache-control" with
  | none => exact hafter
  | some cc =>
    simp only []
    by_cases hne : cc = ""
    · rw [if_pos hne]
      exact hafter
    · rw [if_neg hne]
      by_cases hinc : (jsIncludes cc "max-age" || jsIncludes cc "s-maxage") = true
      · rw [if_pos hinc, hfall cc hcc hne hinc]
        exact hafter
      · rw [if_neg hinc]
        exact hafter

/-- Every result of `_expiresIn` is either the ceiling itself or a value of
the clamped shape `min(round(max(x, 0)), maxExpireIn)`. -/
theorem expiresIn_shape (now : ℚ) (dp : String → JNum) (hs : HeadersL) :
    expiresIn now dp hs = .val maxExpireIn ∨
    ∃ x, expiresIn now dp hs =
      JNum.jmin (JNum.jround (JNum.jmax x (.val 0))) (.val maxExpireIn) := by
  simp only [expiresIn]
  have hafter : ∀ r : JNum, r = (match headersGetValue hs "expires" with
      | none => JNum.val maxExpireIn
      | some e =>
        if e = "" then JNum.val maxExpireIn
        else
          JNum.jmin
            (JNum.jround (JNum.jmax (JNum.sub (dp e) (.val now)) (.val 0)))
            (.val maxExpireIn)) →
      r = .val maxExpireIn ∨
      ∃ x, r = JNum.jmin (JNum.jround (JNum.jmax x (.val 0))) (.val maxExpireIn) := by
    intro r hr
    cases hex : headersGetValue hs "expires" with
    | none => rw [hex] at hr; exact Or.inl hr
    | some e =>
      rw [hex] at hr
      simp only [] at hr
      by_cases hee : e = ""
      · rw [if_pos hee] at hr
        exact Or.inl hr
      · rw [if_neg hee] at hr
        exact Or.inr ⟨_, hr⟩
  cases hcc : headersGetValue hs "cache-control" with
  | none => exact hafter _ rfl
  | some cc =>
    simp only []
    by_cases hne : cc = ""
    · rw [if_pos hne]
      exact hafter _ rfl
    · rw [if_neg hne]
      by_cases hinc : (jsIncludes cc "max-age" || jsIncludes cc "s-maxage") = true
      · rw [if_pos hinc]
        cases hfind : findDirectiveValue (jsSplit ',' cc)
            (if jsIncludes cc "s-maxage" then "s-maxage" else "max-age") with
        | none => exact hafter _ rfl
        | some v =>
          simp only []
          exact Or.inr ⟨_, rfl⟩
      · rw [if_neg hinc]
        exact hafter _ rfl

/-- The clamped shape is within `[0, maxExpireIn]` whenever it is a number. -/
theorem clampShape_bounds (x : JNum)
    (h : JNum.jmin (JNum.jround (JNum.jmax x (.val 0))) (.val maxExpireIn) ≠ .nan) :
    JNum.leb (.val 0)
        (JNum.jmin (JNum.jround (JNum.jmax x (.val 0))) (.val maxExpireIn)) = true ∧
    JNum.leb (JNum.jmin (JNum.jround (JNum.jmax x (.val 0))) (.val maxExpireIn))
        (.val maxExpireIn) = true := by
  cases x with
  | nan => simp [JNum.jmax, JNum.jround, JNum.jmin] at h
  | val q =>
    simp only [JNum.jmax, JNum.jround, JNum.jmin, JNum.leb,
      decide_eq_true_eq]
    constructor
    · apply le_min
      · have h0 : (0 : ℚ) ≤ max q 0 + 1/2 := by
          have := le_max_right q 0
          linarith
        have : (0 : ℤ) ≤ ⌊max q 0 + 1/2⌋ := by
          rw [Int.le_floor]
          exact_mod_cast h0
        exact_mod_cast this
      · unfold maxExpireIn
        norm_num
    · exact min_le_right _ _

/-- C2 (amended): the expiration computation follows the step order — when
the `Cache-Control` value contains the substring `max-age` or `s-maxage` and
its comma-split list has an entry whose trimmed text before the first `=`
equals the priority directive name (`s-maxage` when that substring occurs,
else `max-age`), the TTL derives from that entry's value corrected by
`max((now - dateTime) / 1000, age-or-0)` and clamped to the 30-day ceiling;
otherwise, when an `Expires` header is present and non-empty, the TTL is
`expiresEpoch - now` clamped the same way; otherwise the TTL is the ceiling
itself; and whenever the result is a number (the arithmetic produced no
NaN, as a valueless or malformed directive does), it is at least `0` and at
most the ceiling. -/
theorem expiresIn_step_order (now : ℚ) (dp : String → JNum) (hs : HeadersL) :
    (expiresIn now dp hs ≠ .nan →
      JNum.leb (.val 0) (expiresIn now dp hs) = true ∧
      JNum.leb (expiresIn now dp hs) (.val maxExpireIn) = true) ∧
    (∀ cc v, headersGetValue hs "cache-control" = some cc → cc ≠ "" →
      (jsIncludes cc "max-age" || jsIncludes cc "s-maxage") = true →
      findDirectiveValue (jsSplit ',' cc)
        (if jsIncludes cc "s-maxage" then "s-maxage" else "max-age") = some v →
      expiresIn now dp hs = ccDirectiveTTL now dp hs v) ∧
    (∀ e, ccFallsThrough hs → headersGetValue hs "expires" = some e → e ≠ "" →
      expiresIn now dp hs =
        JNum.jmin (JNum.jround (JNum.jmax (JNum.sub (dp e) (.val now)) (.val 0)))
          (.val maxExpireIn)) ∧
    (ccFallsThrough hs → (∀ e, headersGetValue hs "expires" = some e → e = "") →
      expiresIn now dp hs = .val maxExpireIn) := by
  refine ⟨?_, ?_, ?_, ?_⟩
  · intro hnan
    rcases expiresIn_shape now dp hs with h | ⟨x, h⟩
    · rw [h]
      constructor <;> simp [JNum.leb, maxExpireIn]
    · rw [h]
      exact clampShape_bounds x (h ▸ hnan)
  · intro cc v hcc hne hinc hfind
    exact expiresIn_cc_eq now dp hs cc v hcc hne hinc hfind
  · intro e hfall hexp hene
    exact expiresIn_expires_eq now dp hs e hfall hexp hene
  · intro hfall hexp
    exact expiresIn_default_eq now dp hs hfall hexp

/-- C2 witness: with `Cache-Control: s-maxage=60, max-age=10` the TTL
derives from `s-maxage` (60 seconds, not 10), and the bounds hold. -/
theorem expiresIn_step_order_witness :
    expiresIn 0 (fun _ => .nan) [("cache-control", "s-maxage=60, max-age=10")] =
      .val 60000 ∧
    JNum.leb (.val 0)
      (expiresIn 0 (fun _ => .nan)
        [("cache-control", "s-maxage=60, max-age=10")]) = true := by
  have h := expiresIn_step_order 0 (fun _ => .nan)
    [("cache-control", "s-maxage=60, max-age=10")]
  have hcc := h.2.1 "s-maxage=60, max-age=10" (some "60") (by decide)
    (by decide) (by decide) (by decide)
  constructor
  · exact hcc.trans (by decide)
  · exact (h.1 (by rw [hcc]; decide)).1

/-- C2 counterexample: for `Cache-Control: max-age` (a directive with no
value) the computation returns NaN, which is neither at least `0` nor at
most the ceiling, refuting the claim that the returned value is always
within `[0, maxExpireIn]`. -/
theorem expiresIn_counterexample :
    expiresIn 0 (fun _ => .nan) [("cache-control", "max-age")] = .nan ∧
    JNum.leb (.val 0)
      (expiresIn 0 (fun _ => .nan) [("cache-control", "max-age")]) = false ∧
    JNum.leb (expiresIn 0 (fun _ => .nan) [("cache-control", "max-age")])
      (.val maxExpireIn) = false := by
  decide

/-! ## Sample stores used by the concrete evaluations -/

def urlLocal : UrlM := ⟨"http:", "localhost", "/hello", "", ""⟩

/-- A record created first (creation stamp `1-0`, monotonic ulid `01A`). -/
def recA : PlainRec :=
  ⟨"01A", "9999", "1-0", urlLocal, "GET", [], [], "200", "OK", none⟩

/-- A record created second (creation stamp `2-0`, monotonic ulid `01B`). -/
def recB : PlainRec :=
  ⟨"01B", "9999", "2-0", urlLocal, "GET", [], [], "200", "OK", none⟩

/-- A memory store holding `recA` then `recB` under one index key, inserted
in creation order. -/
def stAB : MemState :=
  dbSet ["cachestorage", "c", "h", "01B"] recB (.val 10)
    (dbSet ["cachestorage", "c", "h", "01A"] recA (.val 10) emptyMemState)

def reqLocal : RequestM := ⟨urlLocal, "GET", []⟩

/-! ## C3 -/

/-- C3 (amended): the two cited `_dbKeys` implementations do not order
identically — the memory backend's `get` enumerates the request's record
keys in descending lexicographic order (`[...index].sort().reverse()`),
newest-first for monotonic-ulid record ids, while the Redis backend's
`get` pulls the index sorted set with ascending-score `ZRANGE` windows and
therefore yields exactly the ascending creation-score order, oldest-first. -/
theorem dbKeys_memory_desc_redis_asc (st : MemState) (key : List String)
    (z : List (ℤ × String)) (keysLimit : ℕ) :
    (dbKeys st key).Pairwise (fun a b => strLeB b a = true) ∧
    redisDbKeys z keysLimit = z.map Prod.snd := by
  constructor
  · unfold dbKeys
    rw [List.pairwise_reverse]
    exact sorted_insSortStr _
  · exact redisDbKeys_eq_members z keysLimit

/-- C3 counterexample: on equivalent two-record stores (records created in
the order `01A`, `01B`), the memory `_dbKeys` yields newest-first while the
Redis `_dbKeys` yields oldest-first — the orders differ, refuting that both
backends enumerate newest-first. -/
theorem dbKeys_order_counterexample :
    dbKeys stAB ["cachestorage", "c", "h"] =
      ["cachestorage:c:h:01B", "cachestorage:c:h:01A"] ∧
    redisDbKeys
        (zadd 2000 "cachestorage:c:h:01B"
          (zadd 1000 "cachestorage:c:h:01A" [])) 4 =
      ["cachestorage:c:h:01A", "cachestorage:c:h:01B"] := by
  decide

/-! ## C4 -/

/-- C4: the claim states the full iteration yields records oldest-first, in
ascending insertion order, and the repository's own persistence-interface
documentation agrees ("the pairs are returned in the order that they were
inserted, that is older pairs are yielded first"); but the memory backend's
`_dbScan` sorts with the comparator `(a, b) => (a[3] > b[3] ? -1 : 1)`,
which is descending in the record id, so the iteration — and hence
`Cache.keys()` with no request — yields the newest record first: on a store
holding `recA` (created `1-0`) then `recB` (created `2-0`), it yields
`recB` before `recA`. -/
theorem memIter_newest_first_eval :
    dbScan stAB ["cachestorage", "c"] =
      ["cachestorage:c:h:01B", "cachestorage:c:h:01A"] ∧
    memIterRecords "c" stAB = [recB, recA] ∧
    cacheKeysAll "c" stAB = [plainToRequest recB, plainToRequest recA] ∧
    recA.created = "1-0" ∧ recB.created = "2-0" := by
  decide

/-! ## C7 -/

/-- C7: whenever the computed TTL is not positive (`expiresIn <= 0`), the
memory persistence `put` returns `false` and leaves the state — record
storage, secondary indexes and timers — unchanged. -/
theorem memPut_expired_noop (digest : String → String) (now : ℚ)
    (dateParse : String → JNum) (id : String) (created : ℚ × ℕ)
    (cacheName : String) (req : RequestM) (res : ResponseM) (st : MemState)
    (h : JNum.leb (expiresIn now dateParse res.headers) (.val 0) = true) :
    memPut digest now dateParse id created cacheName req res st = (false, st) := by
  unfold memPut pairToPlain
  rw [if_pos h]

/-- C7 witness: a response that arrives already expired
(`Cache-Control: max-age=0`) is refused and the store is untouched. -/
theorem memPut_expired_noop_witness :
    memPut (fun _ => "h") 0 (fun _ => .nan) "01C" (0, 0) "c" reqLocal
      ⟨200, "OK", [("cache-control", "max-age=0")], none, false⟩ stAB =
      (false, stAB) :=
  memPut_expired_noop (fun _ => "h") 0 (fun _ => .nan) "01C" (0, 0) "c"
    reqLocal ⟨200, "OK", [("cache-control", "max-age=0")], none, false⟩ stAB
    (by decide)

/-! ## C8 -/

/-- C8 (amended): the memory `get` sequence never yields a record whose
expiration epoch is strictly in the past (`Date.now() > +expires`); a record
with `expires` exactly equal to `now` is still yielded, and the full
iteration applies no expiration check at all — exclusion there relies on
the backend's physical timer removal. -/
theorem memGetRecords_not_expired (digest : String → String) (now : ℚ)
    (cacheName : String) (req : RequestM) (st : MemState) (rec : PlainRec)
    (h : rec ∈ memGetRecords digest now cacheName req st) :
    hasExpired now rec.expires = false := by
  unfold memGetRecords at h
  have h2 := List.of_mem_filter h
  simpa using h2

/-- C8 witness: the filter applied at a live record of a concrete store. -/
theorem memGetRecords_not_expired_witness :
    hasExpired 5 recB.expires = false :=
  memGetRecords_not_expired (fun _ => "h") 5 "c" reqLocal stAB recB (by decide)

/-- A record whose expiration epoch is `5`. -/
def recExp : PlainRec :=
  ⟨"01E", "5", "1-0", urlLocal, "GET", [], [], "200", "OK", none⟩

/-- A memory store holding only `recExp`. -/
def stExp : MemState :=
  dbSet ["cachestorage", "cx", "h", "01E"] recExp (.val 5) emptyMemState

/-- C8 counterexample: a record with `expires = 5` is yielded by the full
iteration at `now = 6` (expired, yet enumerated, since
`[Symbol.asyncIterator]` never checks `_hasExpired`), and is yielded by
`get` at `now = 5` although its expiration epoch is not greater than the
current time — both refuting that no query ever yields a record with
`expires <= now`. -/
theorem memIter_yields_expired_counterexample :
    memIterRecords "cx" stExp = [recExp] ∧
    hasExpired 6 recExp.expires = true ∧
    memGetRecords (fun _ => "h") 5 "cx" reqLocal stExp = [recExp] ∧
    strToNumber recExp.expires = .val 5 := by
  decide

/-! ## C5 -/

/-- C5 (amended): the msgpack codec (compress enabled) round-trips every
record byte-for-byte unconditionally; the JSON codec (compress disabled)
round-trips a record provided each present body is valid UTF-8 and
non-empty. -/
theorem denoKv_codec_roundtrip (r : PlainSerRec)
    (hreq : ∀ bs, r.reqBody = some bs → Utf8Valid bs ∧ bs ≠ [])
    (hres : ∀ bs, r.resBody = some bs → Utf8Valid bs ∧ bs ≠ []) :
    parseMsgpackDenoKv (serializeMsgpackDenoKv r) = r.asParsed ∧
    parseJsonDenoKv (serializeJsonDenoKv r) = r.asParsed := by
  refine ⟨rfl, ?_⟩
  have hbody : ∀ (b : Option (List ℕ)),
      (∀ bs, b = some bs → Utf8Valid bs ∧ bs ≠ []) →
      (b.map utf8Decode).map (fun cps =>
        if cps.isEmpty then BodyVal.text cps
        else BodyVal.bytes (utf8Encode cps)) = b.map BodyVal.bytes := by
    intro b hb
    cases b with
    | none => rfl
    | some bs =>
      obtain ⟨hv, hne⟩ := hb bs rfl
      have h2 : utf8Encode (utf8Decode bs) = bs :=
        utf8Encode_utf8Decode_of_valid bs hv
      have hdne : ¬((utf8Decode bs).isEmpty = true) := by
        intro hemp
        rw [List.isEmpty_iff] at hemp
        have hb2 : bs = [] := by
          rw [← h2, hemp]
          rfl
        exact hne hb2
      simp only [Option.map_some', if_neg hdne, h2]
  simp only [serializeJsonDenoKv, parseJsonDenoKv, PlainSerRec.asParsed]
  rw [hbody r.reqBody hreq, hbody r.resBody hres]

/-- A record whose response body is the valid UTF-8 bytes of "hi". -/
def rHi : PlainSerRec :=
  ⟨"01H", "9", "1-0", "http://localhost/hello", "GET",
    [("accept", "text/html"), ("accept", "text/plain")],
    [("content-type", "text/plain")], "200", "OK", none, some [104, 105]⟩

/-- C5 witness: both codecs round-trip a record with multi-valued headers
and a non-empty valid-UTF-8 binary body. -/
theorem denoKv_codec_roundtrip_witness :
    parseMsgpackDenoKv (serializeMsgpackDenoKv rHi) = rHi.asParsed ∧
    parseJsonDenoKv (serializeJsonDenoKv rHi) = rHi.asParsed :=
  denoKv_codec_roundtrip rHi
    (fun bs h => absurd h (by simp [rHi]))
    (fun bs h => by
      have hb : bs = [104, 105] := by
        have h3 : (some [104, 105] : Option (List ℕ)) = some bs := h
        exact (Option.some.inj h3).symm
      subst hb
      exact ⟨⟨[104, 105], by decide, by decide⟩, by decide⟩)

/-- A record whose response body is the single byte `0xFF`, which is not
valid UTF-8. -/
def rBin : PlainSerRec :=
  ⟨"01F", "9", "1-0", "http://localhost/hello", "GET", [], [], "200", "OK",
    none, some [255]⟩

/-- C5 counterexample: on a record whose response body is the lone byte
`0xFF`, the JSON codec's `TextDecoder` pass replaces the byte with U+FFFD,
so `_parse(_serialize(...))` returns the body `EF BF BD` instead of `FF` —
the round trip is not byte-for-byte for binary bodies. -/
theorem denoKv_json_lossy_counterexample :
    (parseJsonDenoKv (serializeJsonDenoKv rBin)).resBody =
      some (.bytes [239, 191, 189]) ∧
    rBin.asParsed.resBody = some (.bytes [255]) ∧
    parseJsonDenoKv (serializeJsonDenoKv rBin) ≠ rBin.asParsed := by
  have h0 : utf8Decode ([] : List ℕ) = [] := utf8Decode_utf8Encode [] (by simp)
  have hd : utf8Decode [255] = [0xFFFD] := by
    conv_lhs => unfold utf8Decode
    rw [if_neg (by omega), if_neg (by omega), if_neg (by omega),
      if_neg (by omega), h0]
  have hser : serializeJsonDenoKv rBin =
      ⟨"01F", "9", "1-0", "http://localhost/hello", "GET", [], [], "200", "OK",
        none, some [0xFFFD]⟩ := by
    simp only [serializeJsonDenoKv, rBin]
    simp [hd]
  rw [hser]
  refine ⟨by decide, by decide, by decide⟩

/-! ## C6 -/

/-- C6: `Cache.prototype.put` rejects with a `TypeError` and leaves the
store untouched whenever any of the five validation conditions holds, and
the reported error is the first failing check in source order: non-http(s)
scheme, then non-GET method, then status 206, then a `*` Vary field, then a
present already-used body. -/
theorem cachePut_rejects_in_order (norm : CacheHeaderNormalizer)
    (digest : String → String) (now : ℚ) (dateParse : String → JNum)
    (id : String) (created : ℚ × ℕ) (cacheName : String) (req : RequestM)
    (res : ResponseM) (st : MemState)
    (h : (req.url.protocol ≠ "http:" ∧ req.url.protocol ≠ "https:") ∨
      req.method ≠ "GET" ∨ res.status = 206 ∨
      (match headersGetValue res.headers "vary" with
       | some v => v ≠ "" && (jsSplit ',' v).any (fun f => jsTrim f = "*")
       | none => false) = true ∨
      (res.body.isSome ∧ res.bodyUsed)) :
    cachePut norm digest now dateParse id created cacheName req res st =
      (.rejected
        (if req.url.protocol ≠ "http:" ∧ req.url.protocol ≠ "https:" then
          .invalidScheme
        else if req.method ≠ "GET" then .methodNotGet
        else if res.status = 206 then .status206
        else if (match headersGetValue res.headers "vary" with
                 | some v => v ≠ "" &&
                     (jsSplit ',' v).any (fun f => jsTrim f = "*")
                 | none => false) then .varyStar
        else .bodyUsed), st) := by
  unfold cachePut
  by_cases h1 : req.url.protocol ≠ "http:" ∧ req.url.protocol ≠ "https:"
  · rw [if_pos h1, if_pos h1]
  · rw [if_neg h1, if_neg h1]
    by_cases h2 : req.method ≠ "GET"
    · rw [if_pos h2, if_pos h2]
    · rw [if_neg h2, if_neg h2]
      by_cases h3 : res.status = 206
      · rw [if_pos h3, if_pos h3]
      · rw [if_neg h3, if_neg h3]
        by_cases h4 : (match headersGetValue res.headers "vary" with
          | some v => v ≠ "" && (jsSplit ',' v).any (fun f => jsTrim f = "*")
          | none => false) = true
        · rw [if_pos h4, if_pos h4]
        · rw [if_neg h4, if_neg h4]
          have h5 : res.body.isSome ∧ res.bodyUsed := by
            rcases h with h | h | h | h | h
            · exact absurd h h1
            · exact absurd h h2
            · exact absurd h h3
            · exact absurd h h4
            · exact h
          rw [if_pos h5]

/-- C6 witness: a `put` with a POST request is rejected with the
method error and the empty store stays empty. -/
theorem cachePut_rejects_in_order_witness :
    cachePut (fun _ v => v) (fun _ => "h") 0 (fun _ => .nan) "01W" (0, 0) "c"
      ⟨urlLocal, "POST", []⟩ ⟨200, "OK", [], none, false⟩ emptyMemState =
      (.rejected .methodNotGet, emptyMemState) := by
  rw [cachePut_rejects_in_order (fun _ v => v) (fun _ => "h") 0 (fun _ => .nan)
    "01W" (0, 0) "c" ⟨urlLocal, "POST", []⟩ ⟨200, "OK", [], none, false⟩
    emptyMemState (Or.inr (Or.inl (by decide)))]
  decide

/-! ## C9 -/

/-- A string holding no `:` key separator. -/
def colonFree (s : String) : Bool :=
  s.toList.all (fun c => c ≠ ':')

/-- Splitting a joined key recovers the parts when all parts are
separator-free. -/
theorem splitKey_joinKey (parts : List String) (hne : parts ≠ [])
    (hcf : ∀ p ∈ parts, colonFree p = true) :
    splitKey (joinKey parts) = parts := by
  unfold splitKey joinKey
  rw [show (String.mk (joinCh ':' (parts.map String.toList))).toList =
      joinCh ':' (parts.map String.toList) from rfl]
  rw [splitCh_joinCh ':' (parts.map String.toList)
    (by simpa using hne)
    (by
      intro p hp
      rcases List.mem_map.mp hp with ⟨q, hq, rfl⟩
      have h2 := hcf q hq
      simp only [colonFree, List.all_eq_true] at h2
      intro hmem
      have h3 := h2 ':' hmem
      simp at h3)]
  rw [List.map_map]
  have hid : (String.mk ∘ String.toList) = id := funext fun s => rfl
  rw [hid, List.map_id]

/-! ### Association-list lemmas -/

theorem mem_assocSet {α : Type} (k : String) (v : α) (l : List (String × α))
    (p : String × α) (h : p ∈ assocSet k v l) :
    p = (k, v) ∨ (p ∈ l ∧ p.1 ≠ k) := by
  unfold assocSet at h
  split at h
  · next hhas =>
    rcases List.mem_map.mp h with ⟨q, hq, hqe⟩
    by_cases hqk : q.1 = k
    · left
      rw [← hqe]
      simp [hqk]
    · right
      rw [← hqe]
      simp only [if_neg hqk]
      exact ⟨hq, hqk⟩
  · next hhas =>
    rcases List.mem_append.mp h with h1 | h1
    · right
      refine ⟨h1, fun hk => ?_⟩
      apply hhas
      unfold assocHas
      rw [List.any_eq_true]
      exact ⟨p, h1, by simp [hk]⟩
    · left
      simpa using h1

theorem assocHas_assocSet_self {α : Type} (k : String) (v : α)
    (l : List (String × α)) : assocHas k (assocSet k v l) = true := by
  unfold assocSet
  split
  · next hhas =>
    unfold assocHas at hhas ⊢
    rw [List.any_eq_true] at hhas ⊢
    rcases hhas with ⟨q, hq, hqk⟩
    have hq1 : q.1 = k := by simpa using hqk
    exact ⟨(k, v), List.mem_map.mpr ⟨q, hq, by simp [hq1]⟩, by simp⟩
  · unfold assocHas
    rw [List.any_eq_true]
    exact ⟨(k, v), by simp, by simp⟩

theorem assocHas_assocSet_of {α : Type} (k k' : String) (v : α)
    (l : List (String × α)) (h : assocHas k' l = true) :
    assocHas k' (assocSet k v l) = true := by
  unfold assocHas at h
  rw [List.any_eq_true] at h
  rcases h with ⟨q, hq, hqk⟩
  have hqk' : q.1 = k' := by simpa using hqk
  unfold assocSet assocHas
  rw [List.any_eq_true]
  split
  · by_cases hq1 : q.1 = k
    · have hkk : k = k' := by rw [← hq1]; exact hqk'
      exact ⟨(k, v), List.mem_map.mpr ⟨q, hq, by simp [hq1]⟩, by simp [hkk]⟩
    · exact ⟨q, List.mem_map.mpr ⟨q, hq, by simp [hq1]⟩, by simp [hqk']⟩
  · exact ⟨q, List.mem_append_left _ hq, by simp [hqk']⟩

theorem assocGet_mem {α : Type} (k : String) (l : List (String × α)) (v : α)
    (h : assocGet k l = some v) : (k, v) ∈ l := by
  unfold assocGet at h
  cases hf : l.find? (fun p => p.1 = k) with
  | none => rw [hf] at h; simp at h
  | some q =>
    rw [hf] at h
    simp only [Option.map_some', Option.some.injEq] at h
    have hmem := List.mem_of_find?_eq_some hf
    have hkey := List.find?_some hf
    have hk : q.1 = k := by simpa using hkey
    have hq : q = (k, v) := by
      obtain ⟨q1, q2⟩ := q
      simp only at hk h
      rw [hk, h]
    rw [← hq]
    exact hmem

theorem assocGet_none {α : Type} (k : String) (l : List (String × α))
    (h : assocGet k l = none) : ∀ v, (k, v) ∉ l := by
  intro v hv
  unfold assocGet at h
  cases hf : l.find? (fun p => p.1 = k) with
  | some q => rw [hf] at h; simp at h
  | none =>
    have h2 := List.find?_eq_none.mp hf (k, v) hv
    simp at h2

theorem mem_assocErase {α : Type} (k : String) (l : List (String × α))
    (p : String × α) : p ∈ assocErase k l ↔ p ∈ l ∧ p.1 ≠ k := by
  unfold assocErase
  rw [List.mem_filter]
  simp

theorem assocHas_assocErase {α : Type} (k k' : String) (l : List (String × α))
    (hne : k' ≠ k) (h : assocHas k' l = true) :
    assocHas k' (assocErase k l) = true := by
  unfold assocHas at h ⊢
  rw [List.any_eq_true] at h ⊢
  rcases h with ⟨q, hq, hqk⟩
  have hk : q.1 = k' := by simpa using hqk
  exact ⟨q, (mem_assocErase k l q).mpr ⟨hq, by rw [hk]; exact hne⟩, by simp [hk]⟩

/-! ### The index invariants -/

/-- The secondary-index invariant of the claim: every index set is non-empty
and every member key refers to a record present in storage. -/
def memInvariant (st : MemState) : Prop :=
  ∀ p ∈ st.indexes, p.2 ≠ [] ∧ ∀ k ∈ p.2, assocHas k st.storage = true

instance (st : MemState) : Decidable (memInvariant st) := by
  unfold memInvariant
  infer_instance

/-- The strengthened inductive invariant: additionally, every index member
list is duplicate-free and each member key is filed under its own 3-part
index key. -/
def memInv (st : MemState) : Prop :=
  ∀ p ∈ st.indexes, p.2 ≠ [] ∧ p.2.Nodup ∧
    ∀ k ∈ p.2, assocHas k st.storage = true ∧ indexKeyOfString k = p.1

theorem memInv_memInvariant (st : MemState) (h : memInv st) : memInvariant st := by
  intro p hp
  obtain ⟨h1, _, h3⟩ := h p hp
  exact ⟨h1, fun k hk => (h3 k hk).1⟩

/-! ### Preservation of the invariant -/

theorem memInv_dbSet (key : List String) (rec : PlainRec) (ei : JNum)
    (st : MemState) (h : memInv st) : memInv (dbSet key rec ei st) := by
  intro p hp
  simp only [dbSet] at hp ⊢
  rcases mem_assocSet _ _ _ p hp with hpe | ⟨hpm, hpne⟩
  · obtain ⟨p1, p2⟩ := p
    injection hpe with he1 he2
    subst he1
    subst he2
    have hidx : ∀ k ∈ (assocGet (indexKeyOfString (joinKey key)) st.indexes).getD [],
        assocHas k st.storage = true ∧
        indexKeyOfString k = indexKeyOfString (joinKey key) := by
      intro k hk
      cases hget : assocGet (indexKeyOfString (joinKey key)) st.indexes with
      | none => rw [hget] at hk; simp at hk
      | some ms =>
        rw [hget] at hk
        simp only [Option.getD_some] at hk
        exact (h _ (assocGet_mem _ _ _ hget) |>.2.2) k hk
    have hnd : ((assocGet (indexKeyOfString (joinKey key)) st.indexes).getD
        []).Nodup := by
      cases hget : assocGet (indexKeyOfString (joinKey key)) st.indexes with
      | none => simp
      | some ms =>
        simp only [Option.getD_some]
        exact (h _ (assocGet_mem _ _ _ hget)).2.1
    by_cases hmem : joinKey key ∈
        (assocGet (indexKeyOfString (joinKey key)) st.indexes).getD []
    · rw [if_pos hmem]
      refine ⟨List.ne_nil_of_mem hmem, hnd, fun k hk => ?_⟩
      by_cases hkpk : k = joinKey key
      · subst hkpk
        exact ⟨assocHas_assocSet_self _ _ _, rfl⟩
      · exact ⟨assocHas_assocSet_of _ _ _ _ (hidx k hk).1, (hidx k hk).2⟩
    · rw [if_neg hmem]
      refine ⟨by simp, ?_, fun k hk => ?_⟩
      · rw [List.nodup_append]
        refine ⟨hnd, by simp, ?_⟩
        intro a ha hb
        simp only [List.mem_singleton] at hb
        subst hb
        exact hmem ha
      · rcases List.mem_append.mp hk with hk1 | hk1
        · exact ⟨assocHas_assocSet_of _ _ _ _ (hidx k hk1).1, (hidx k hk1).2⟩
        · simp only [List.mem_singleton] at hk1
          subst hk1
          exact ⟨assocHas_assocSet_self _ _ _, rfl⟩
  · obtain ⟨h1, h2, h3⟩ := h p hpm
    exact ⟨h1, h2, fun k hk =>
      ⟨assocHas_assocSet_of _ _ _ _ (h3 k hk).1, (h3 k hk).2⟩⟩

theorem memInv_dbDelCore (pk : String) (st : MemState) (h : memInv st) :
    memInv (dbDelCore pk (indexKeyOfString pk) st).2 := by
  intro p hp
  simp only [dbDelCore] at hp ⊢
  cases hget : assocGet (indexKeyOfString pk) st.indexes with
  | none =>
    rw [hget] at hp
    simp only [] at hp
    obtain ⟨h1, h2, h3⟩ := h _ hp
    refine ⟨h1, h2, fun k hk => ?_⟩
    have hkne : k ≠ pk := by
      intro he
      have hik := (h3 k hk).2
      rw [he] at hik
      refine assocGet_none _ _ hget p.2 ?_
      rw [hik]
      exact hp
    exact ⟨assocHas_assocErase pk k _ hkne (h3 k hk).1, (h3 k hk).2⟩
  | some ms =>
    rw [hget] at hp
    simp only [] at hp
    have hmsmem := assocGet_mem _ _ _ hget
    obtain ⟨hms1, hms2, hms3⟩ := h _ hmsmem
    have hms2' : ms.Nodup := hms2
    have hms3' : ∀ k ∈ ms, assocHas k st.storage = true ∧
        indexKeyOfString k = indexKeyOfString pk := hms3
    by_cases hemp : (ms.erase pk).isEmpty = true
    · rw [if_pos hemp] at hp
      obtain ⟨hpm, hpne⟩ := (mem_assocErase _ _ _).mp hp
      obtain ⟨h1, h2, h3⟩ := h _ hpm
      refine ⟨h1, h2, fun k hk => ?_⟩
      have hkne : k ≠ pk := by
        intro he
        apply hpne
        rw [← (h3 k hk).2, he]
      exact ⟨assocHas_assocErase pk k _ hkne (h3 k hk).1, (h3 k hk).2⟩
    · rw [if_neg hemp] at hp
      rcases mem_assocSet _ _ _ _ hp with hpe | ⟨hpm, hpne⟩
      · subst hpe
        refine ⟨fun hnil => hemp ?_, hms2'.erase pk, fun k hk => ?_⟩
        · rw [show ms.erase pk = [] from hnil]
          rfl
        · have hk2 := (List.Nodup.mem_erase_iff hms2').mp hk
          exact ⟨assocHas_assocErase pk k _ hk2.1 (hms3' k hk2.2).1,
            (hms3' k hk2.2).2⟩
      · obtain ⟨h1, h2, h3⟩ := h _ hpm
        refine ⟨h1, h2, fun k hk => ?_⟩
        have hkne : k ≠ pk := by
          intro he
          apply hpne
          rw [← (h3 k hk).2, he]
        exact ⟨assocHas_assocErase pk k _ hkne (h3 k hk).1, (h3 k hk).2⟩

theorem memInv_dbDelString (k : String) (st : MemState) (h : memInv st) :
    memInv (dbDelString k st).2 :=
  memInv_dbDelCore k st h

theorem memInv_dbDelList (key : List String) (st : MemState)
    (hne : key ≠ []) (hcf : ∀ s ∈ key, colonFree s = true) (h : memInv st) :
    memInv (dbDelList key st).2 := by
  have hik : indexKeyOfString (joinKey key) = indexKeyOfList key := by
    unfold indexKeyOfString indexKeyOfList
    rw [splitKey_joinKey key hne hcf]
  show memInv (dbDelCore (joinKey key) (indexKeyOfList key) st).2
  rw [← hik]
  exact memInv_dbDelCore (joinKey key) st h

theorem memInv_memPut (digest : String → String) (now : ℚ)
    (dateParse : String → JNum) (id : String) (created : ℚ × ℕ)
    (cacheName : String) (req : RequestM) (res : ResponseM) (st : MemState)
    (h : memInv st) :
    memInv (memPut digest now dateParse id created cacheName req res st).2 := by
  cases hpp : pairToPlain now dateParse id created req res with
  | none =>
    simp only [memPut, hpp]
    exact h
  | some pr =>
    obtain ⟨rec, ei⟩ := pr
    simp only [memPut, hpp]
    exact memInv_dbSet _ rec ei st h

theorem memInv_memDelete (digest : String → String) (cacheName : String)
    (req : RequestM) (res : Option ResponseM) (st : MemState)
    (hok : match res with
      | none => True
      | some r => colonFree cacheName = true ∧
          colonFree (digest (urlString (urlClearSearch (urlClearHash req.url)))) = true ∧
          (match headersGetValue r.headers "x-cachestorage-id" with
           | some idv => colonFree idv = true
           | none => True))
    (h : memInv st) : memInv (memDelete digest cacheName req res st).2 := by
  cases res with
  | none =>
    have hfold : ∀ (keys : List String) (acc : Bool × MemState), memInv acc.2 →
        memInv ((keys.foldl (fun acc k =>
          let r := dbDelString k acc.2
          (acc.1 || r.1, r.2)) acc)).2 := by
      intro keys
      induction keys with
      | nil => intro acc hacc; exact hacc
      | cons k ks ih =>
        intro acc hacc
        exact ih _ (memInv_dbDelString k acc.2 hacc)
    simp only [memDelete]
    exact hfold _ _ h
  | some r =>
    obtain ⟨hc, hd, hid⟩ := hok
    simp only [memDelete]
    apply memInv_dbDelList _ st ?hne ?hcf h
    case hne => simp [persistenceKeyRequestResponse, persistenceKeyRequest]
    case hcf =>
      intro s hs
      unfold persistenceKeyRequestResponse persistenceKeyRequest at hs
      rcases List.mem_append.mp hs with hs1 | hs1
      · simp only [List.mem_cons, List.not_mem_nil, or_false] at hs1
        rcases hs1 with hs2 | hs2 | hs2
        · rw [hs2]; decide
        · rw [hs2]; exact hc
        · rw [hs2]; exact hd
      · cases hg : headersGetValue r.headers "x-cachestorage-id" with
        | none => rw [hg] at hs1; simp at hs1
        | some idv =>
          rw [hg] at hs1
          rw [hg] at hid
          simp only [] at hs1 hid
          by_cases hvv : idv = ""
          · rw [if_pos hvv] at hs1
            simp at hs1
          · rw [if_neg hvv] at hs1
            simp only [List.mem_singleton] at hs1
            rw [hs1]
            exact hid

/-! ### Operation sequences -/

/-- One backend operation: a `put` (with its effectful inputs passed in) or
a `delete` (with or without a response). -/
inductive MemOp where
  | opPut : ℚ → (String → JNum) → String → ℚ × ℕ → String → RequestM →
      ResponseM → MemOp
  | opDel : String → RequestM → Option ResponseM → MemOp

def memOpStep (digest : String → String) (op : MemOp) (st : MemState) :
    MemState :=
  match op with
  | .opPut now dateParse id created cacheName req res =>
    (memPut digest now dateParse id created cacheName req res st).2
  | .opDel cacheName req res => (memDelete digest cacheName req res st).2

def memOpsRun (digest : String → String) (ops : List MemOp) (st : MemState) :
    MemState :=
  ops.foldl (fun s op => memOpStep digest op s) st

/-- The side condition of the amended claim: a `delete` with a response must
have a separator-free cache name, digest value and record-id marker (a `put`
or a `delete` without a response needs no condition). -/
def memOpOK (digest : String → String) : MemOp → Prop
  | .opPut _ _ _ _ _ _ _ => True
  | .opDel cacheName req res =>
    match res with
    | none => True
    | some r => colonFree cacheName = true ∧
        colonFree (digest (urlString (urlClearSearch (urlClearHash req.url)))) = true ∧
        (match headersGetValue r.headers "x-cachestorage-id" with
         | some idv => colonFree idv = true
         | none => True)

instance (o : Option String) : Decidable (match o with
    | some idv => colonFree idv = true
    | none => True) :=
  match o with
  | none => isTrue trivial
  | some idv => inferInstanceAs (Decidable (colonFree idv = true))

instance (digest : String → String) (op : MemOp) :
    Decidable (memOpOK digest op) := by
  cases op with
  | opPut a b c d e f g => exact isTrue trivial
  | opDel cn req res =>
    cases res with
    | none => exact isTrue trivial
    | some r =>
      exact inferInstanceAs (Decidable (colonFree cn = true ∧
        colonFree (digest (urlString (urlClearSearch (urlClearHash req.url)))) = true ∧
        (match headersGetValue r.headers "x-cachestorage-id" with
         | some idv => colonFree idv = true
         | none => True)))

/-- C9 (amended): starting from the empty store, after every finite sequence
of put and delete operations in which each delete-with-response carries a
separator-free cache name, digest value and record-id marker, every key held
in any secondary index refers to a record present in storage and no index
set is empty. -/
theorem memInvariant_after_ops (digest : String → String) (ops : List MemOp)
    (hok : ∀ op ∈ ops, memOpOK digest op) :
    memInvariant (memOpsRun digest ops emptyMemState) := by
  have hrun : ∀ (l : List MemOp) (st : MemState),
      (∀ op ∈ l, memOpOK digest op) → memInv st →
      memInv (memOpsRun digest l st) := by
    intro l
    induction l with
    | nil => intro st _ hst; exact hst
    | cons op rest ih =>
      intro st hall hst
      have hstep : memInv (memOpStep digest op st) := by
        cases op with
        | opPut now dateParse id created cacheName req res =>
          exact memInv_memPut digest now dateParse id created cacheName req
            res st hst
        | opDel cacheName req res =>
          have hthis : memOpOK digest (.opDel cacheName req res) :=
            hall _ (by simp)
          exact memInv_memDelete digest cacheName req res st hthis hst
      exact ih _ (fun o ho => hall o (by simp [ho])) hstep
  have hempty : memInv emptyMemState := by
    intro p hp
    simp [emptyMemState] at hp
  exact memInv_memInvariant _ (hrun ops emptyMemState hok hempty)

/-- C9 witness: a put followed by a delete-with-response with separator-free
names leaves the index invariant intact. -/
theorem memInvariant_after_ops_witness :
    memInvariant (memOpsRun (fun _ => "h")
      [.opPut 0 (fun _ => .nan) "i" (0, 0) "c" reqLocal
        ⟨200, "OK", [("cache-control", "max-age=60")], none, false⟩,
       .opDel "c" reqLocal
        (some ⟨200, "OK", [("x-cachestorage-id", "i")], none, false⟩)]
      emptyMemState) :=
  memInvariant_after_ops (fun _ => "h") _ (by decide)

/-- The store left by a put and then a delete-with-response under a cache
name holding the key separator (`"a:b"`). -/
def stDangling : MemState :=
  memOpsRun (fun _ => "h")
    [.opPut 0 (fun _ => .nan) "i" (0, 0) "a:b" reqLocal
      ⟨200, "OK", [("cache-control", "max-age=60")], none, false⟩,
     .opDel "a:b" reqLocal
      (some ⟨200, "OK", [("x-cachestorage-id", "i")], none, false⟩)]
    emptyMemState

/-- C9 counterexample: with the cache name `"a:b"`, `_dbSet` files the
record under the index key derived from the joined string
(`"cachestorage:a:b"`) while the delete derives `"cachestorage:a:b:h"` from
the key array, so the record is removed from storage but its index entry
survives: the final store has empty storage yet a non-empty index — the
claimed invariant fails after a two-operation sequence. -/
theorem memIndex_dangling_counterexample :
    stDangling.storage = [] ∧
    stDangling.indexes = [("cachestorage:a:b", ["cachestorage:a:b:h:i"])] ∧
    ¬ memInvariant stDangling := by
  decide

end WebCache
